import Mathlib

/-!
# router: path matching, registry dispatch, middleware and sub-routers

A shallow embedding of `router.go` (package `router`).

* Go strings are modelled as lists of characters (`Str`).  The only string
  operations the package uses are `strings.Split`, `strings.Join`,
  `strings.TrimPrefix` and concatenation, all with the one-byte separator `/`,
  which is never part of a longer UTF-8 sequence: splitting by characters and
  splitting by bytes give the same pieces.
* Handlers and middlewares written by the user are identified by a number; a
  handler leaves one trace event, a middleware leaves one when it is entered
  and says how many times it calls `next`.  They do not change the routers
  while a request is served.
* Slice accesses are checked: an index or a slice bound out of range makes the
  model return `none`, as the Go runtime would stop with a run-time error.
* The locking (`sync.RWMutex`) is not modelled: the model is sequential.
* A `*Map` is an address in a heap of `Map` records, so that a handler stored
  in one registry can refer to a router that is configured later.
-/

namespace router

/-- Go `string`. -/
abbrev Str := List Char

namespace strings

/-- Go `strings.Split(s, sep)` for a one-character separator: the pieces between
the separators, empty pieces kept; one piece when `s` holds no separator. -/
def Split (s : Str) (sep : Char) : List Str :=
  match s with
  | [] => [[]]
  | c :: cs =>
    if c = sep then [] :: Split cs sep
    else
      match Split cs sep with
      | [] => [[c]]
      | seg :: rest => (c :: seg) :: rest

/-- Go `strings.Join(elems, sep)`. -/
def Join : List Str → Str → Str
  | [], _ => []
  | [a], _ => a
  | a :: b :: rest, sep => a ++ sep ++ Join (b :: rest) sep

/-- Go `strings.HasPrefix(s, pre)`. -/
def HasPrefix (s pre : Str) : Bool := pre.isPrefixOf s

/-- Go `strings.TrimPrefix(s, pre)`: `s` without the leading `pre` when it is
there, `s` itself otherwise. -/
def TrimPrefix (s pre : Str) : Str :=
  if HasPrefix s pre then s.drop pre.length else s

end strings

/-- The constant `Default = "/*"`. -/
def Default : Str := "/*".toList

/-- The constant `Error = "/!"`. -/
def Error : Str := "/!".toList

/-- The Go statement `xs[i] = v` on a slice: `none` when `i` is out of range. -/
def storeAt {α : Type} (xs : List α) (i : Int) (v : α) : Option (List α) :=
  if 0 ≤ i ∧ i < xs.length then some (xs.set i.toNat v) else none

/-- The Go expression `xs[:l]` on a slice whose capacity is its length:
`none` when `l` is out of range. -/
def sliceTo {α : Type} (xs : List α) (l : Int) : Option (List α) :=
  if 0 ≤ l ∧ l ≤ xs.length then some (xs.take l.toNat) else none

/-- The loop `for l := c - 1; l > 0; l-- { result[c-l] = strings.Join(p[:l], "/") + "/*" }`
of `matches`, entered with the current value of `l`. -/
def matchesLoop (p : List Str) (c : Nat) : Nat → List Str → Option (List Str)
  | 0, result => some result
  | l + 1, result => do
    let pl ← sliceTo p ((l : Int) + 1)
    let result ← storeAt result ((c : Int) - ((l : Int) + 1))
      (strings.Join pl "/".toList ++ "/*".toList)
    matchesLoop p c l result

/-- The function `matches(path)` (`matches` is a reserved word of Lean, hence the
underscore): the possible route matches of a path, most specific first. -/
def matches_ (path : Str) : Option (List Str) := do
  let p := strings.Split path '/'
  let c := p.length
  let result := List.replicate (c + 1) ([] : Str)
  let result ← storeAt result 0 path
  let result ← matchesLoop p c (c - 1) result
  storeAt result c Error

/-- The wildcard candidate for `l` segments, in the words of the specification:
the join of `s[0..l-1]` with `/`, suffixed with `/*`. -/
def wildcard (s : List Str) (l : Nat) : Str :=
  strings.Join (s.take l) "/".toList ++ "/*".toList

/-- The wildcard candidates for `l`, `l - 1`, ..., `1`, in that order. -/
def wildcards (s : List Str) : Nat → List Str
  | 0 => []
  | l + 1 => wildcard s (l + 1) :: wildcards s l

/-- The candidate list in the words of the specification (section 4.1): the
exact path, the wildcard candidates for `l = n - 1` down to `1`, the error
sentinel. -/
def candidates (P : Str) : List Str :=
  let s := strings.Split P '/'
  [P] ++ wildcards s (s.length - 1) ++ [Error]

/-! ## Handlers, middleware and the router state -/

/-- A value of the function type `Middleware`.  The body of a middleware is
user code; the model keeps its identity (`name`, recorded in the trace when the
middleware is entered) and how many times it calls `next` on a given request
path: `0` for a middleware that stops the chain, `1` for the usual
pass-through. -/
structure Middleware where
  name : Nat
  nextCalls : Str → Nat

/-- The `http.HandlerFunc` values that occur in the package: a handler written
by the user, the method values `m.ServeHTTP` and `m.serveHTTP` of the `Map` at
an address, and the closure built by `wrap`. -/
inductive HandlerFunc where
  | user (id : Nat)
  | ServeHTTP (ref : Nat)
  | serveHTTP (ref : Nat)
  | wrapped (mw : Middleware) (next : HandlerFunc)

/-- An `http.Handler` value: a `*Map` (by address) or any other implementation. -/
inductive Handler where
  | map (ref : Nat)
  | other (id : Nat)

/-- The method value `h.ServeHTTP` of an `http.Handler`. -/
def Handler.ServeHTTP : Handler → HandlerFunc
  | Handler.map ref => HandlerFunc.ServeHTTP ref
  | Handler.other id => HandlerFunc.user id

/-- The struct `Map` (its mutex left out): mount path, registry and composed
entry point. -/
structure Map where
  pathPrefix : Str
  handlers : Str → Option HandlerFunc
  handler : HandlerFunc

/-- The memory: the `Map` records allocated so far, a `*Map` being an index. -/
abbrev Heap := List Map

/-- The function `wrap`: the closure `func(w, r) { mw(w, r, next) }`. -/
def wrap (mw : Middleware) (next : HandlerFunc) : HandlerFunc :=
  HandlerFunc.wrapped mw next

/-- The function `New`: allocates a `Map` with an empty registry whose composed
handler is its own `serveHTTP`. -/
def New (H : Heap) : Heap × Nat :=
  (H ++ [{ pathPrefix := [], handlers := fun _ => none,
           handler := HandlerFunc.serveHTTP H.length }], H.length)

/-- The method `Middleware`: each middleware, in argument order, is wrapped
around the current composed handler. -/
def Map.Middleware (m : Map) (middleware : List Middleware) : Map :=
  { m with handler := middleware.foldl (fun h mw => wrap mw h) m.handler }

/-- The method `HandleFunc`: `m.handlers[path] = hf`. -/
def Map.HandleFunc (m : Map) (path : Str) (hf : HandlerFunc) : Map :=
  { m with handlers := fun k => if k = path then some hf else m.handlers k }

/-- The method `Handle`: `m.handlers[path] = h.ServeHTTP`. -/
def Map.Handle (m : Map) (path : Str) (h : Handler) : Map :=
  { m with handlers := fun k => if k = path then some h.ServeHTTP else m.handlers k }

/-- The method `Default`. -/
def Map.Default (m : Map) (h : Handler) : Map := m.Handle router.Default h

/-- The method `DefaultFunc`. -/
def Map.DefaultFunc (m : Map) (hf : HandlerFunc) : Map := m.HandleFunc router.Default hf

/-- The method `Error`. -/
def Map.Error (m : Map) (h : Handler) : Map := m.Handle router.Error h

/-- The method `ErrorFunc`. -/
def Map.ErrorFunc (m : Map) (hf : HandlerFunc) : Map := m.HandleFunc router.Error hf

/-- The constant `http.StatusNotFound`. -/
def StatusNotFound : Nat := 404

/-- What the body of `serveHTTP` does to the outside: it calls a handler with
the request it received (recorded by its path), or writes a status. -/
inductive Effect where
  | call (hf : HandlerFunc) (path : Str)
  | WriteHeader (status : Nat)

/-- The loop of `serveHTTP` over the possible matches, followed by the
statement after the loop: the first key found in the registry has its handler
called and the function returns; when the loop ends the 404 is written. -/
def serveLoop (handlers : Str → Option HandlerFunc) (path : Str) : List Str → List Effect
  | [] => [Effect.WriteHeader StatusNotFound]
  | k :: ks =>
    match handlers k with
    | some hf => [Effect.call hf path]
    | none => serveLoop handlers path ks

/-- The method `serveHTTP` on a request with URL path `path`: `none` stands for
a run-time error in `matches`. -/
def Map.serveHTTP (m : Map) (path : Str) : Option (List Effect) := do
  let ks ← matches_ (strings.TrimPrefix path m.pathPrefix)
  pure (serveLoop m.handlers path ks)

/-- Applies `f` to the `Map` at address `ref` (a valid address is expected;
the heap is left as it is otherwise). -/
def Heap.update (H : Heap) (ref : Nat) (f : Map → Map) : Heap :=
  match H[ref]? with
  | some m => H.set ref (f m)
  | none => H

/-- The method `Sub`, called on the `Map` at address `ref`: allocates the
sub-router, sets its mount path, registers it in the parent under
`path + "/*"` and returns its address. -/
def Sub (H : Heap) (ref : Nat) (path : Str) : Heap × Nat :=
  let H1 := (New H).1
  let sub := (New H).2
  let H2 := H1.update sub (fun s => { s with pathPrefix := path })
  (H2.update ref (fun m => m.Handle (path ++ "/*".toList) (Handler.map sub)), sub)

/-- The state of a sub-router when `Sub` returns it: mount path set, empty
registry, composed handler its own `serveHTTP`. -/
def newSub (path : Str) (ref : Nat) : Map :=
  { pathPrefix := path, handlers := fun _ => none, handler := HandlerFunc.serveHTTP ref }

/-- A sequence of `HandleFunc` calls on one router. -/
def registerAll (regs : List (Str × HandlerFunc)) (m : Map) : Map :=
  regs.foldl (fun m r => m.HandleFunc r.1 r.2) m

/-- A configuration call on a router: a registration or the addition of middlewares. -/
inductive Op where
  | HandleFunc (path : Str) (hf : HandlerFunc)
  | Handle (path : Str) (h : Handler)
  | Middleware (middleware : List Middleware)

/-- The call on a router. -/
def Map.config (m : Map) : Op → Map
  | Op.HandleFunc path hf => m.HandleFunc path hf
  | Op.Handle path h => m.Handle path h
  | Op.Middleware middleware => m.Middleware middleware

/-- A sequence of configuration calls, in order. -/
def configAll (ops : List Op) (m : Map) : Map := ops.foldl Map.config m

/-- The middlewares added by a sequence of calls, in the order they are added. -/
def middlewaresOf : List Op → List Middleware
  | [] => []
  | Op.Middleware middleware :: ops => middleware ++ middlewaresOf ops
  | _ :: ops => middlewaresOf ops

/-! ## Execution of a request -/

/-- What a request makes observable: a middleware is entered, a user handler
is invoked, a status is written. -/
inductive Event where
  | middleware (name : Nat)
  | handler (id : Nat)
  | WriteHeader (status : Nat)
  deriving DecidableEq, Repr

/-- Why an execution gives no trace: a run-time error, or the depth bound of
the model is reached. -/
inductive Fault where
  | panic
  | outOfFuel
  deriving DecidableEq, Repr

/-- Runs `x` and then `y`, the traces in sequence. -/
def seqTrace (x y : Except Fault (List Event)) : Except Fault (List Event) :=
  match x with
  | Except.error e => Except.error e
  | Except.ok t =>
    match y with
    | Except.error e => Except.error e
    | Except.ok u => Except.ok (t ++ u)

/-- Runs `x` `n` times in sequence. -/
def repeatTrace (x : Except Fault (List Event)) : Nat → Except Fault (List Event)
  | 0 => Except.ok []
  | n + 1 => seqTrace x (repeatTrace x n)

/-- The call `hf(w, r)` for a request with URL path `path`, in the heap `H`.
The fuel bounds the depth of nested handler calls (registries can be cyclic,
a router can be registered in itself). -/
def run (H : Heap) : Nat → HandlerFunc → Str → Except Fault (List Event)
  | 0, _, _ => Except.error Fault.outOfFuel
  | _ + 1, HandlerFunc.user id, _ => Except.ok [Event.handler id]
  | fuel + 1, HandlerFunc.ServeHTTP ref, path =>
    match H[ref]? with
    | none => Except.error Fault.panic
    | some m => run H fuel m.handler path
  | fuel + 1, HandlerFunc.serveHTTP ref, path =>
    match H[ref]? with
    | none => Except.error Fault.panic
    | some m =>
      match m.serveHTTP path with
      | none => Except.error Fault.panic
      | some effects =>
        effects.foldl (fun acc e =>
          match e with
          | Effect.call hf p => seqTrace acc (run H fuel hf p)
          | Effect.WriteHeader status => seqTrace acc (Except.ok [Event.WriteHeader status]))
          (Except.ok [])
  | fuel + 1, HandlerFunc.wrapped mw next, path =>
    seqTrace (Except.ok [Event.middleware mw.name])
      (repeatTrace (run H fuel next path) (mw.nextCalls path))

/-- The trace event of entering a middleware. -/
def mwEvent (mw : Middleware) : Event := Event.middleware mw.name

/-- The trace of a chain of pass-through or repeating middlewares `mws` (in the
order they were added) around a handler whose trace is `t`: each middleware is
entered and then runs what it wraps as many times as it calls `next`. -/
def chainTrace (path : Str) (mws : List Middleware) (t : List Event) : List Event :=
  mws.foldl (fun t mw => mwEvent mw :: (List.replicate (mw.nextCalls path) t).flatten) t

/-! ## States used as instances -/

/-- A router with no mount path and an empty registry, at address `0`. -/
def emptyMap : Map := newSub [] 0

/-- A registry with the patterns `"/a/*"` and `"/*"`. -/
def exampleRegistry : Map :=
  (emptyMap.HandleFunc "/a/*".toList (HandlerFunc.user 1)).HandleFunc "/*".toList
    (HandlerFunc.user 2)

/-- A registry with the single pattern `"/a/b/*"`. -/
def exampleWildcardOnly : Map :=
  emptyMap.HandleFunc "/a/b/*".toList (HandlerFunc.user 1)

/-- A middleware that calls `next` once on every request. -/
def mwPass (name : Nat) : Middleware := { name := name, nextCalls := fun _ => 1 }

/-- A middleware that never calls `next`. -/
def mwStop (name : Nat) : Middleware := { name := name, nextCalls := fun _ => 0 }

/-- A heap with the single router `exampleRegistry`. -/
def exampleHeap : Heap := [exampleRegistry]

/-- The heap after `root := New()`, `d1 := root.Sub("/api")`,
`d2 := d1.Sub("/v1")`, `d2.HandleFunc("/users", h7)`: addresses `0`, `1`, `2`. -/
def nestedHeap : Heap :=
  ((Sub (Sub (New []).1 0 "/api".toList).1 1 "/v1".toList).1).update 2
    (fun m => m.HandleFunc "/users".toList (HandlerFunc.user 7))

/-- The heap after `root := New()`, `d1 := root.Sub("/a")`: `d1`, at address
`1`, has the mount path `"/a"`. -/
def prefixedParentHeap : Heap :=
  (Sub (New []).1 0 "/a".toList).1

/-- A registry with the error sentinel `"/!"` and the default `"/*"`. -/
def exampleErrorRegistry : Map :=
  (emptyMap.ErrorFunc (HandlerFunc.user 9)).DefaultFunc (HandlerFunc.user 2)

/-- A route registered before two `Middleware` calls. -/
def exampleOpsBefore : List Op :=
  [Op.HandleFunc "/a/*".toList (HandlerFunc.user 1), Op.Middleware [mwPass 1],
   Op.Middleware [mwPass 2]]

/-- The same middlewares added by one call, the route registered after. -/
def exampleOpsAfter : List Op :=
  [Op.Middleware [mwPass 1, mwPass 2], Op.HandleFunc "/a/*".toList (HandlerFunc.user 1)]

/-! ## Path matcher -/

theorem split_length_pos (s : Str) (sep : Char) : 0 < (strings.Split s sep).length := by
  induction s with
  | nil => simp [strings.Split]
  | cons c cs ih =>
    unfold strings.Split
    split
    · simp
    · split
      · simp
      · simp

@[simp] theorem wildcards_length (s : List Str) (l : Nat) : (wildcards s l).length = l := by
  induction l with
  | zero => rfl
  | succ l ih => simp [wildcards, ih]

theorem wildcards_eq_map (s : List Str) (l : Nat) :
    wildcards s l = (List.range l).map (fun i => wildcard s (l - i)) := by
  induction l with
  | zero => rfl
  | succ l ih =>
    rw [List.range_succ_eq_map, wildcards, ih]
    simp [Function.comp_def]

theorem storeAt_natCast {α : Type} (xs : List α) (i : Nat) (v : α) (h : i < xs.length) :
    storeAt xs (i : Int) v = some (xs.set i v) := by
  unfold storeAt
  rw [if_pos ⟨by omega, by omega⟩]
  simp

theorem sliceTo_natCast {α : Type} (xs : List α) (l : Nat) (h : l ≤ xs.length) :
    sliceTo xs (l : Int) = some (xs.take l) := by
  unfold sliceTo
  rw [if_pos ⟨by omega, by omega⟩]
  simp

theorem matchesLoop_eq (p : List Str) (c : Nat) (hc : c = p.length) :
    ∀ (l : Nat) (result : List Str), l < c → result.length = c + 1 →
      matchesLoop p c l result
        = some (result.take (c - l) ++ wildcards p l ++ result.drop c) := by
  intro l
  induction l with
  | zero =>
    intro result _ _
    simp [matchesLoop, wildcards]
  | succ l ih =>
    intro result hl hlen
    have h1 : sliceTo p ((l : Int) + 1) = some (p.take (l + 1)) := by
      have := sliceTo_natCast p (l + 1) (by omega)
      simpa using this
    have h2 : ∀ v, storeAt result ((c : Int) - ((l : Int) + 1)) v
        = some (result.set (c - (l + 1)) v) := by
      intro v
      have := storeAt_natCast result (c - (l + 1)) v (by omega)
      rw [← this]
      congr 1
      omega
    simp only [matchesLoop, h1, h2, Option.bind_eq_bind, Option.some_bind]
    rw [ih _ (by omega) (by simpa using hlen)]
    congr 1
    have hk : c - l = (c - (l + 1)) + 1 := by omega
    rw [hk, List.set_eq_take_append_cons_drop, if_pos (by omega)]
    have hlen2 : (List.take (c - (l + 1)) result).length = c - (l + 1) := by
      simp; omega
    rw [List.take_append_eq_append_take, List.drop_append_eq_append_drop]
    simp only [hlen2, List.take_take]
    have e1 : min (c - (l + 1) + 1) (c - (l + 1)) = c - (l + 1) := by omega
    have e2 : c - (l + 1) + 1 - (c - (l + 1)) = 1 := by omega
    have e3 : c - (c - (l + 1)) = (l + 1) := by omega
    rw [e1, e2, e3]
    have e4 : List.drop c (List.take (c - (l + 1)) result) = [] := by
      apply List.drop_eq_nil_of_le
      simp
    rw [e4]
    simp only [List.take_succ_cons, List.take_zero, List.drop_succ_cons, List.drop_drop,
      wildcards, wildcard, List.nil_append, List.append_assoc, List.cons_append,
      List.singleton_append]
    congr 3
    have : c - (l + 1) + 1 + l = c := by omega
    rw [this]

theorem split_append_sep (a b : Str) (sep : Char) :
    strings.Split (a ++ sep :: b) sep = strings.Split a sep ++ strings.Split b sep := by
  induction a with
  | nil => simp [strings.Split]
  | cons c a ih =>
    by_cases hc : c = sep
    · simp only [List.cons_append]
      rw [strings.Split, if_pos hc, ih]
      conv_rhs => rw [strings.Split, if_pos hc]
      simp
    · simp only [List.cons_append]
      rw [strings.Split, if_neg hc, ih]
      conv_rhs => rw [strings.Split, if_neg hc]
      have hpos := split_length_pos a sep
      cases hs : strings.Split a sep with
      | nil => rw [hs] at hpos; simp at hpos
      | cons seg rest => simp

theorem join_cons_cons (c : Char) (seg : Str) (rest : List Str) (sep : Str) :
    strings.Join ((c :: seg) :: rest) sep = c :: strings.Join (seg :: rest) sep := by
  cases rest with
  | nil => simp [strings.Join]
  | cons b rest => simp [strings.Join]

theorem join_split (s : Str) (sep : Char) : strings.Join (strings.Split s sep) [sep] = s := by
  induction s with
  | nil => simp [strings.Split, strings.Join]
  | cons c cs ih =>
    have hpos := split_length_pos cs sep
    cases hs : strings.Split cs sep with
    | nil => rw [hs] at hpos; simp at hpos
    | cons seg rest =>
      rw [hs] at ih
      by_cases hc : c = sep
      · rw [strings.Split, if_pos hc, hs, strings.Join, ih, hc]
        simp
      · rw [strings.Split, if_neg hc, hs]
        simp only []
        rw [join_cons_cons, ih]

theorem join_append (a b : List Str) (sep : Str) (ha : a ≠ []) (hb : b ≠ []) :
    strings.Join (a ++ b) sep = strings.Join a sep ++ sep ++ strings.Join b sep := by
  induction a with
  | nil => exact absurd rfl ha
  | cons x a ih =>
    cases a with
    | nil =>
      cases b with
      | nil => exact absurd rfl hb
      | cons y b => simp [strings.Join]
    | cons x2 a =>
      have := ih (by simp)
      simp only [List.cons_append] at this ⊢
      rw [strings.Join, this]
      simp [strings.Join]

/-- The source function `matches` never stops with a run-time error and computes
the candidate list of the specification. -/
theorem matches_eq_candidates (P : Str) : matches_ P = some (candidates P) := by
  obtain ⟨m, hm⟩ : ∃ m, (strings.Split P '/').length = m + 1 :=
    ⟨(strings.Split P '/').length - 1, by have := split_length_pos P '/'; omega⟩
  unfold matches_ candidates
  simp only [hm]
  have h0 : storeAt (List.replicate (m + 1 + 1) ([] : Str)) 0 P
      = some (P :: List.replicate (m + 1) ([] : Str)) := by
    have := storeAt_natCast (List.replicate (m + 1 + 1) ([] : Str)) 0 P (by simp)
    simpa [List.replicate_succ] using this
  rw [h0]
  simp only [Option.bind_eq_bind, Option.some_bind]
  rw [matchesLoop_eq _ _ hm.symm _ _ (by omega) (by simp)]
  simp only [Option.some_bind]
  rw [storeAt_natCast _ _ _ (by simp)]
  congr 1
  have e : m + 1 - (m + 1 - 1) = 1 := by omega
  rw [e]
  simp only [Nat.add_sub_cancel, List.take_succ_cons, List.take_zero, List.drop_succ_cons,
    List.singleton_append, List.cons_append, List.set_cons_succ]
  congr 1
  rw [List.set_eq_take_append_cons_drop, if_pos (by simp)]
  simp [List.take_append_eq_append_take, List.drop_append_eq_append_drop]

theorem mem_wildcards (s : List Str) (n l : Nat) (h1 : 1 ≤ l) (h2 : l ≤ n) :
    wildcard s l ∈ wildcards s n := by
  induction n with
  | zero => omega
  | succ n ih =>
    rw [wildcards]
    by_cases h : l = n + 1
    · subst h; simp
    · exact List.mem_cons_of_mem _ (ih (by omega))

theorem mem_candidates_self (P : Str) : P ∈ candidates P := by
  simp [candidates]

theorem mem_candidates_Error (P : Str) : Error ∈ candidates P := by
  simp [candidates]

/-- The wildcard pattern of an ancestor is a candidate of every path below it. -/
theorem mem_candidates_ancestor (Q R : Str) :
    Q ++ "/*".toList ∈ candidates (Q ++ '/' :: R) := by
  have hq := split_length_pos Q '/'
  have hr := split_length_pos R '/'
  have hw : wildcard (strings.Split (Q ++ '/' :: R) '/') (strings.Split Q '/').length
      = Q ++ "/*".toList := by
    unfold wildcard
    rw [split_append_sep, List.take_left]
    have := join_split Q '/'
    simp only [String.toList] at this ⊢
    rw [this]
  have hmem := mem_wildcards (strings.Split (Q ++ '/' :: R) '/')
    ((strings.Split (Q ++ '/' :: R) '/').length - 1) (strings.Split Q '/').length hq
    (by rw [split_append_sep, List.length_append]; omega)
  rw [hw] at hmem
  unfold candidates
  simp only [List.mem_append, List.mem_singleton]
  exact Or.inl (Or.inr hmem)

theorem serveLoop_of_find_some (handlers : Str → Option HandlerFunc) (path : Str)
    (ks : List Str) (k : Str) (hf : HandlerFunc)
    (hfind : ks.find? (fun k => (handlers k).isSome) = some k) (hk : handlers k = some hf) :
    serveLoop handlers path ks = [Effect.call hf path] := by
  induction ks with
  | nil => simp at hfind
  | cons a ks ih =>
    rw [serveLoop]
    cases ha : handlers a with
    | none =>
      simp only [List.find?_cons, ha, Option.isSome_none] at hfind
      exact ih hfind
    | some g =>
      simp only [List.find?_cons, ha, Option.isSome_some, Option.some.injEq] at hfind
      subst hfind
      rw [ha] at hk
      simp only [Option.some.injEq] at hk
      simp [hk]

theorem serveLoop_of_all_none (handlers : Str → Option HandlerFunc) (path : Str)
    (ks : List Str) (h : ∀ k ∈ ks, handlers k = none) :
    serveLoop handlers path ks = [Effect.WriteHeader StatusNotFound] := by
  induction ks with
  | nil => rfl
  | cons a ks ih =>
    rw [serveLoop, h a (by simp)]
    exact ih (fun k hk => h k (List.mem_cons_of_mem _ hk))

theorem serveLoop_eq_call_or_notFound (handlers : Str → Option HandlerFunc) (path : Str)
    (ks : List Str) :
    (∃ k hf, k ∈ ks ∧ handlers k = some hf ∧ serveLoop handlers path ks = [Effect.call hf path])
    ∨ ((∀ k ∈ ks, handlers k = none)
        ∧ serveLoop handlers path ks = [Effect.WriteHeader StatusNotFound]) := by
  induction ks with
  | nil => right; exact ⟨by simp, rfl⟩
  | cons a ks ih =>
    cases ha : handlers a with
    | some g => left; exact ⟨a, g, by simp, ha, by rw [serveLoop, ha]⟩
    | none =>
      rcases ih with ⟨k, hf, hk, hreg, hrun⟩ | ⟨hnone, hrun⟩
      · left; exact ⟨k, hf, List.mem_cons_of_mem _ hk, hreg, by rw [serveLoop, ha]; exact hrun⟩
      · right
        refine ⟨?_, by rw [serveLoop, ha]; exact hrun⟩
        intro k hk
        rcases List.mem_cons.mp hk with rfl | hk
        · exact ha
        · exact hnone k hk

theorem serveHTTP_eq (m : Map) (path : Str) :
    m.serveHTTP path
      = some (serveLoop m.handlers path (candidates (strings.TrimPrefix path m.pathPrefix))) := by
  unfold Map.serveHTTP
  rw [matches_eq_candidates]
  rfl

/-! ## Execution lemmas -/

@[simp] theorem seqTrace_ok_ok (t u : List Event) :
    seqTrace (Except.ok t) (Except.ok u) = Except.ok (t ++ u) := rfl

@[simp] theorem seqTrace_nil_left (x : Except Fault (List Event)) :
    seqTrace (Except.ok []) x = x := by
  cases x <;> rfl

@[simp] theorem seqTrace_nil_right (x : Except Fault (List Event)) :
    seqTrace x (Except.ok []) = x := by
  cases x <;> simp [seqTrace]

theorem seqTrace_assoc (x y z : Except Fault (List Event)) :
    seqTrace (seqTrace x y) z = seqTrace x (seqTrace y z) := by
  cases x <;> cases y <;> cases z <;> simp [seqTrace]

theorem repeatTrace_ok (t : List Event) (n : Nat) :
    repeatTrace (Except.ok t) n = Except.ok (List.replicate n t).flatten := by
  induction n with
  | zero => rfl
  | succ n ih => rw [repeatTrace, ih]; simp [List.replicate_succ]

@[simp] theorem repeatTrace_one (x : Except Fault (List Event)) : repeatTrace x 1 = x := by
  simp [repeatTrace]

theorem run_serveHTTP_call (H : Heap) (ref : Nat) (m : Map) (path : Str) (hf : HandlerFunc)
    (fuel : Nat) (hm : H[ref]? = some m) (hs : m.serveHTTP path = some [Effect.call hf path]) :
    run H (fuel + 1) (HandlerFunc.serveHTTP ref) path = run H fuel hf path := by
  simp [run, hm, hs]

theorem run_serveHTTP_notFound (H : Heap) (ref : Nat) (m : Map) (path : Str)
    (fuel : Nat) (hm : H[ref]? = some m)
    (hs : m.serveHTTP path = some [Effect.WriteHeader StatusNotFound]) :
    run H (fuel + 1) (HandlerFunc.serveHTTP ref) path
      = Except.ok [Event.WriteHeader StatusNotFound] := by
  simp [run, hm, hs]

theorem run_ServeHTTP (H : Heap) (ref : Nat) (m : Map) (path : Str) (fuel : Nat)
    (hm : H[ref]? = some m) :
    run H (fuel + 1) (HandlerFunc.ServeHTTP ref) path = run H fuel m.handler path := by
  simp [run, hm]

/-- A chain of pass-through middlewares runs last added first, then what it wraps. -/
theorem run_chain_once (H : Heap) (path : Str) (mws : List Middleware) :
    ∀ (h : HandlerFunc) (fuel : Nat), (∀ mw ∈ mws, mw.nextCalls path = 1) →
      run H (fuel + mws.length) (mws.foldl (fun h mw => wrap mw h) h) path
        = seqTrace (Except.ok (mws.reverse.map mwEvent)) (run H fuel h path) := by
  induction mws with
  | nil => intro h fuel _; simp
  | cons a rest ih =>
    intro h fuel hall
    have ha : a.nextCalls path = 1 := hall a (by simp)
    have hrest : ∀ mw ∈ rest, mw.nextCalls path = 1 :=
      fun mw hmw => hall mw (List.mem_cons_of_mem _ hmw)
    have e : fuel + (a :: rest).length = (fuel + 1) + rest.length := by
      simp only [List.length_cons]; omega
    rw [List.foldl_cons, e, ih (wrap a h) (fuel + 1) hrest]
    simp only [wrap, run, ha, repeatTrace_one, List.reverse_cons, List.map_append, List.map_cons,
      List.map_nil]
    rw [← seqTrace_assoc]
    rfl

/-- A chain of middlewares around a handler that gives the trace `t`. -/
theorem run_chain (H : Heap) (path : Str) (mws : List Middleware) :
    ∀ (h : HandlerFunc) (fuel : Nat) (t : List Event), run H fuel h path = Except.ok t →
      run H (fuel + mws.length) (mws.foldl (fun h mw => wrap mw h) h) path
        = Except.ok (chainTrace path mws t) := by
  induction mws with
  | nil => intro h fuel t ht; simpa [chainTrace] using ht
  | cons a rest ih =>
    intro h fuel t ht
    have e : fuel + (a :: rest).length = (fuel + 1) + rest.length := by
      simp only [List.length_cons]; omega
    have h1 : run H (fuel + 1) (wrap a h) path
        = Except.ok (mwEvent a :: (List.replicate (a.nextCalls path) t).flatten) := by
      simp only [wrap, run, ht, repeatTrace_ok, seqTrace_ok_ok]
      rfl
    rw [List.foldl_cons, e, ih (wrap a h) (fuel + 1) _ h1]
    rfl

theorem foldl_Middleware_handler (batches : List (List Middleware)) :
    ∀ m : Map, (batches.foldl Map.Middleware m).handler
      = batches.flatten.foldl (fun h mw => wrap mw h) m.handler := by
  induction batches with
  | nil => intro m; rfl
  | cons b rest ih =>
    intro m
    rw [List.foldl_cons, ih]
    simp [Map.Middleware, List.foldl_append]

theorem getElem?_update_self (H : Heap) (ref : Nat) (f : Map → Map) (m : Map)
    (hm : H[ref]? = some m) : (H.update ref f)[ref]? = some (f m) := by
  unfold Heap.update
  rw [hm]
  have hlt : ref < H.length := by
    rcases Nat.lt_or_ge ref H.length with h | h
    · exact h
    · rw [List.getElem?_eq_none h] at hm; cases hm
  simp [List.getElem?_set, hlt]

theorem getElem?_update_ne (H : Heap) (ref i : Nat) (f : Map → Map) (hne : ref ≠ i) :
    (H.update ref f)[i]? = H[i]? := by
  unfold Heap.update
  cases H[ref]? with
  | none => rfl
  | some m => simp [List.getElem?_set, hne]

theorem chainTrace_once (path : Str) (mws : List Middleware) :
    ∀ t : List Event, (∀ a ∈ mws, a.nextCalls path = 1) →
      chainTrace path mws t = mws.reverse.map mwEvent ++ t := by
  induction mws with
  | nil => intro t _; rfl
  | cons a rest ih =>
    intro t hall
    have ha : a.nextCalls path = 1 := hall a (by simp)
    have hrest : ∀ b ∈ rest, b.nextCalls path = 1 :=
      fun b hb => hall b (List.mem_cons_of_mem _ hb)
    have := ih (mwEvent a :: (List.replicate (a.nextCalls path) t).flatten) hrest
    unfold chainTrace at this ⊢
    rw [List.foldl_cons, this, ha]
    simp

theorem chainTrace_subset (path : Str) (mws : List Middleware) :
    ∀ t : List Event, ∀ e ∈ chainTrace path mws t, e ∈ t ∨ ∃ a ∈ mws, e = mwEvent a := by
  induction mws with
  | nil => intro t e he; exact Or.inl he
  | cons a rest ih =>
    intro t e he
    have h := ih (mwEvent a :: (List.replicate (a.nextCalls path) t).flatten) e he
    rcases h with h | ⟨b, hb, rfl⟩
    · rcases List.mem_cons.mp h with rfl | h
      · exact Or.inr ⟨a, by simp, rfl⟩
      · left
        rw [List.mem_flatten] at h
        obtain ⟨l, hl, hel⟩ := h
        rw [List.mem_replicate] at hl
        rw [← hl.2]; exact hel
    · exact Or.inr ⟨b, List.mem_cons_of_mem _ hb, rfl⟩

theorem chainTrace_mem (path : Str) (mws : List Middleware) :
    ∀ t : List Event, (∀ a ∈ mws, 0 < a.nextCalls path) →
      (∀ e ∈ t, e ∈ chainTrace path mws t) ∧ (∀ a ∈ mws, mwEvent a ∈ chainTrace path mws t) := by
  induction mws with
  | nil => intro t _; exact ⟨fun e he => he, by simp⟩
  | cons a rest ih =>
    intro t hall
    have ha : 0 < a.nextCalls path := hall a (by simp)
    have hrest : ∀ b ∈ rest, 0 < b.nextCalls path :=
      fun b hb => hall b (List.mem_cons_of_mem _ hb)
    obtain ⟨h1, h2⟩ := ih (mwEvent a :: (List.replicate (a.nextCalls path) t).flatten) hrest
    constructor
    · intro e he
      apply h1
      apply List.mem_cons_of_mem
      rw [List.mem_flatten]
      exact ⟨t, List.mem_replicate.mpr ⟨by omega, rfl⟩, he⟩
    · intro b hb
      rcases List.mem_cons.mp hb with rfl | hb
      · exact h1 _ (by simp)
      · exact h2 b hb

theorem hasPrefix_append (X R : Str) : strings.HasPrefix (X ++ R) X = true := by
  unfold strings.HasPrefix
  induction X with
  | nil => simp [List.isPrefixOf]
  | cons c X ih => simp [List.isPrefixOf, ih]

theorem trimPrefix_append (X R : Str) : strings.TrimPrefix (X ++ R) X = R := by
  unfold strings.TrimPrefix
  rw [hasPrefix_append, if_pos rfl, List.drop_left]

theorem trimPrefix_nil (s : Str) : strings.TrimPrefix s [] = s := by
  simp [strings.TrimPrefix, strings.HasPrefix]

theorem serveLoop_of_takeWhile (handlers : Str → Option HandlerFunc) (path : Str)
    (target : Str) (hf : HandlerFunc) (htarget : handlers target = some hf) :
    ∀ ks : List Str, target ∈ ks →
      (∀ k ∈ ks.takeWhile (fun k => decide (k ≠ target)), handlers k = none) →
      serveLoop handlers path ks = [Effect.call hf path] := by
  intro ks
  induction ks with
  | nil => intro h; simp at h
  | cons a ks ih =>
    intro hmem hnone
    by_cases ha : a = target
    · rw [serveLoop, ha, htarget]
    · have hna : handlers a = none := hnone a (by simp [List.takeWhile_cons, ha])
      rw [serveLoop, hna]
      apply ih
      · rcases List.mem_cons.mp hmem with h | h
        · exact absurd h.symm ha
        · exact h
      · intro k hk
        apply hnone
        simp only [List.takeWhile_cons, ha, ne_eq, not_false_eq_true, decide_True]
        exact List.mem_cons_of_mem _ hk

theorem registerAll_pathPrefix (regs : List (Str × HandlerFunc)) :
    ∀ m : Map, (registerAll regs m).pathPrefix = m.pathPrefix := by
  induction regs with
  | nil => intro m; rfl
  | cons r regs ih => intro m; exact (ih (m.HandleFunc r.1 r.2)).trans rfl

theorem registerAll_handler (regs : List (Str × HandlerFunc)) :
    ∀ m : Map, (registerAll regs m).handler = m.handler := by
  induction regs with
  | nil => intro m; rfl
  | cons r regs ih => intro m; exact (ih (m.HandleFunc r.1 r.2)).trans rfl

theorem getElem?_lt_length (H : Heap) (p : Nat) (m : Map) (hp : H[p]? = some m) :
    p < H.length := by
  rcases Nat.lt_or_ge p H.length with h | h
  · exact h
  · rw [List.getElem?_eq_none h] at hp; cases hp

theorem Sub_snd (H0 : Heap) (p : Nat) (X : Str) : (Sub H0 p X).2 = H0.length := rfl

theorem Sub_getElem?_sub (H0 : Heap) (p : Nat) (parent : Map) (X : Str)
    (hp : H0[p]? = some parent) :
    (Sub H0 p X).1[H0.length]?
      = some (newSub X H0.length) := by
  have hlt := getElem?_lt_length H0 p parent hp
  unfold Sub
  simp only [New]
  rw [getElem?_update_ne _ _ _ _ (by omega)]
  rw [getElem?_update_self _ _ _ (newSub [] H0.length) (by simp [newSub])]
  rfl

theorem Sub_getElem?_parent (H0 : Heap) (p : Nat) (parent : Map) (X : Str)
    (hp : H0[p]? = some parent) :
    (Sub H0 p X).1[p]?
      = some (parent.Handle (X ++ "/*".toList) (Handler.map H0.length)) := by
  have hlt := getElem?_lt_length H0 p parent hp
  unfold Sub
  simp only [New]
  apply getElem?_update_self
  rw [getElem?_update_ne _ _ _ _ (by omega)]
  rw [List.getElem?_append_left hlt]
  exact hp

theorem wildcards_getElem? (s : List Str) :
    ∀ (l j : Nat), j < l → (wildcards s l)[j]? = some (wildcard s (l - j)) := by
  intro l
  induction l with
  | zero => intro j hj; omega
  | succ l ih =>
    intro j hj
    cases j with
    | zero => simp [wildcards]
    | succ j =>
      rw [wildcards, List.getElem?_cons_succ, ih j (by omega)]
      congr 2
      omega

theorem candidates_length (P : Str) :
    (candidates P).length = (strings.Split P '/').length + 1 := by
  have := split_length_pos P '/'
  simp only [candidates, List.length_append, List.length_singleton, wildcards_length]
  omega

theorem candidates_getElem?_wildcard (P : Str) (i : Nat) (h1 : 1 ≤ i)
    (h2 : i < (strings.Split P '/').length) :
    (candidates P)[i]?
      = some (wildcard (strings.Split P '/') ((strings.Split P '/').length - i)) := by
  obtain ⟨j, rfl⟩ : ∃ j, i = j + 1 := ⟨i - 1, by omega⟩
  simp only [candidates, List.singleton_append, List.cons_append, List.getElem?_cons_succ,
    List.nil_append]
  rw [List.getElem?_append_left (by simp; omega), wildcards_getElem? _ _ _ (by omega)]
  congr 2
  omega

theorem candidates_getElem?_last (P : Str) :
    (candidates P)[(strings.Split P '/').length]? = some Error := by
  obtain ⟨m, hm⟩ : ∃ m, (strings.Split P '/').length = m + 1 :=
    ⟨(strings.Split P '/').length - 1, by have := split_length_pos P '/'; omega⟩
  simp only [candidates, hm, List.singleton_append, List.cons_append, List.getElem?_cons_succ,
    Nat.add_sub_cancel]
  rw [List.getElem?_append_right (by simp)]
  simp

theorem join_take_drop (s : List Str) (sep : Str) (l : Nat) (h1 : 1 ≤ l) (h2 : l < s.length) :
    strings.Join s sep = strings.Join (s.take l) sep ++ sep ++ strings.Join (s.drop l) sep := by
  have h := join_append (s.take l) (s.drop l) sep
    (by intro h; have := congrArg List.length h
        rw [List.length_take, List.length_nil] at this; omega)
    (by intro h; have := congrArg List.length h
        rw [List.length_drop, List.length_nil] at this; omega)
  rwa [List.take_append_drop] at h

theorem join_take_succ (s : List Str) (sep : Str) (l : Nat) (h1 : 1 ≤ l) (h2 : l < s.length) :
    strings.Join (s.take (l + 1)) sep = strings.Join (s.take l) sep ++ sep ++ s[l] := by
  have h := join_take_drop (s.take (l + 1)) sep l h1 (by simp; omega)
  rw [h, List.take_take, Nat.min_eq_left (by omega)]
  congr 1
  have : List.drop l (List.take (l + 1) s) = [s[l]] := by
    rw [List.drop_take]
    simp [List.take_one_drop_eq_of_lt_length h2]
  rw [this]
  rfl

theorem split_head_nil_iff (P : Str) (sep : Char) :
    (strings.Split P sep).head? = some [] ↔ P = [] ∨ P.head? = some sep := by
  cases P with
  | nil => simp [strings.Split]
  | cons c cs =>
    by_cases hc : c = sep
    · rw [strings.Split, if_pos hc]; simp [hc]
    · rw [strings.Split, if_neg hc]
      have hpos := split_length_pos cs sep
      cases hs : strings.Split cs sep with
      | nil => rw [hs] at hpos; simp at hpos
      | cons seg rest => simp [hc]

theorem split_length_eq_count (P : Str) (sep : Char) :
    (strings.Split P sep).length = P.count sep + 1 := by
  induction P with
  | nil => simp [strings.Split]
  | cons c cs ih =>
    by_cases hc : c = sep
    · rw [strings.Split, if_pos hc]
      simp [hc, ih]
    · rw [strings.Split, if_neg hc]
      have hpos := split_length_pos cs sep
      cases hs : strings.Split cs sep with
      | nil => rw [hs] at hpos; simp at hpos
      | cons seg rest =>
        rw [hs] at ih
        simp only [List.length_cons] at ih ⊢
        rw [List.count_cons_of_ne (Ne.symm hc)]
        exact ih

theorem candidates_getLast? (P : Str) : (candidates P).getLast? = some Error := by
  unfold candidates
  simp only []
  rw [List.getLast?_append]
  rfl

theorem hasPrefix_iff (s pre : Str) :
    strings.HasPrefix s pre = true ↔ ∃ R, s = pre ++ R := by
  unfold strings.HasPrefix
  induction pre generalizing s with
  | nil => simp [List.isPrefixOf]
  | cons c pre ih =>
    cases s with
    | nil => simp [List.isPrefixOf]
    | cons d s =>
      simp only [List.isPrefixOf, Bool.and_eq_true, beq_iff_eq, List.cons_append, List.cons.injEq]
      rw [ih]
      constructor
      · rintro ⟨rfl, R, rfl⟩; exact ⟨R, rfl, rfl⟩
      · rintro ⟨R, rfl, rfl⟩; exact ⟨rfl, R, rfl⟩

theorem trimPrefix_of_not_hasPrefix (s pre : Str) (h : strings.HasPrefix s pre = false) :
    strings.TrimPrefix s pre = s := by
  unfold strings.TrimPrefix
  rw [h]
  simp

theorem append_wild_ne_Error (X : Str) : X ++ "/*".toList ≠ Error := by
  intro h
  have := congrArg List.getLast? h
  simp [Error] at this

theorem mem_wildcards_iff (s : List Str) (n : Nat) (x : Str) :
    x ∈ wildcards s n ↔ ∃ l, 1 ≤ l ∧ l ≤ n ∧ x = wildcard s l := by
  induction n with
  | zero =>
    simp only [wildcards, List.not_mem_nil, false_iff]
    rintro ⟨l, h1, h2, _⟩
    omega
  | succ n ih =>
    rw [wildcards, List.mem_cons, ih]
    constructor
    · rintro (rfl | ⟨l, h1, h2, rfl⟩)
      · exact ⟨n + 1, by omega, by omega, rfl⟩
      · exact ⟨l, h1, by omega, rfl⟩
    · rintro ⟨l, h1, h2, rfl⟩
      by_cases h : l = n + 1
      · left; rw [h]
      · right; exact ⟨l, h1, by omega, rfl⟩

theorem wildcards_ne_Error (s : List Str) (n : Nat) : ∀ k ∈ wildcards s n, k ≠ Error := by
  intro k hk
  obtain ⟨l, _, _, rfl⟩ := (mem_wildcards_iff s n k).mp hk
  exact append_wild_ne_Error _

theorem find?_sentinel_iff (handlers : Str → Option HandlerFunc) (init : List Str) (e : Str)
    (hinit : ∀ k ∈ init, k ≠ e) (hreg : (handlers e).isSome = true) :
    (init ++ [e]).find? (fun c => (handlers c).isSome) = some e
      ↔ ∀ k ∈ init ++ [e], k ≠ e → handlers k = none := by
  rw [List.find?_append]
  constructor
  · intro h k hk hne
    cases hf : init.find? (fun c => (handlers c).isSome) with
    | some k0 =>
      rw [hf] at h
      simp only [Option.or_some, Option.some.injEq] at h
      exact absurd h (hinit k0 (List.mem_of_find?_eq_some hf))
    | none =>
      rw [List.find?_eq_none] at hf
      have hk' : k ∈ init := by
        rcases List.mem_append.mp hk with h1 | h1
        · exact h1
        · exact absurd (List.mem_singleton.mp h1) hne
      have := hf k hk'
      simpa using this
  · intro h
    have hnone : init.find? (fun c => (handlers c).isSome) = none := by
      rw [List.find?_eq_none]
      intro k hk
      rw [h k (List.mem_append_left _ hk) (hinit k hk)]
      simp
    rw [hnone]
    simp [hreg]

theorem Map.eq_of_fields (m1 m2 : Map) (h1 : m1.pathPrefix = m2.pathPrefix)
    (h2 : m1.handlers = m2.handlers) (h3 : m1.handler = m2.handler) : m1 = m2 := by
  cases m1; cases m2
  simp only at h1 h2 h3
  subst h1 h2 h3
  rfl

theorem registerAll_handlers_of_not_mem (regs : List (Str × HandlerFunc)) (k : Str) :
    ∀ m : Map, k ∉ regs.map Prod.fst → (registerAll regs m).handlers k = m.handlers k := by
  induction regs with
  | nil => intro m _; rfl
  | cons r regs ih =>
    intro m hk
    simp only [List.map_cons, List.mem_cons, not_or] at hk
    have := ih (m.HandleFunc r.1 r.2) hk.2
    show (registerAll regs (m.HandleFunc r.1 r.2)).handlers k = _
    rw [this]
    show (if k = r.1 then _ else _) = _
    rw [if_neg hk.1]

theorem registerAll_handlers_of_mem (regs : List (Str × HandlerFunc)) (r : Str × HandlerFunc) :
    ∀ m : Map, (regs.map Prod.fst).Nodup → r ∈ regs →
      (registerAll regs m).handlers r.1 = some r.2 := by
  induction regs with
  | nil => intro m _ h; simp at h
  | cons a regs ih =>
    intro m hnd hr
    simp only [List.map_cons, List.nodup_cons] at hnd
    show (registerAll regs (m.HandleFunc a.1 a.2)).handlers r.1 = _
    rcases List.mem_cons.mp hr with rfl | hr
    · rw [registerAll_handlers_of_not_mem regs _ _ hnd.1]
      show (if r.1 = r.1 then _ else _) = _
      rw [if_pos rfl]
    · exact ih _ hnd.2 hr

theorem registerAll_perm (m : Map) (regs1 regs2 : List (Str × HandlerFunc))
    (hperm : regs1.Perm regs2) (hnodup : (regs1.map Prod.fst).Nodup) :
    registerAll regs1 m = registerAll regs2 m := by
  have hnodup2 : (regs2.map Prod.fst).Nodup := (hperm.map Prod.fst).nodup_iff.mp hnodup
  apply Map.eq_of_fields
  · rw [registerAll_pathPrefix, registerAll_pathPrefix]
  · funext k
    by_cases hk : k ∈ regs1.map Prod.fst
    · obtain ⟨r, hr, rfl⟩ := List.mem_map.mp hk
      rw [registerAll_handlers_of_mem regs1 r m hnodup hr,
        registerAll_handlers_of_mem regs2 r m hnodup2 (hperm.mem_iff.mp hr)]
    · have hk2 : k ∉ regs2.map Prod.fst := fun h => hk ((hperm.map Prod.fst).mem_iff.mpr h)
      rw [registerAll_handlers_of_not_mem regs1 k m hk,
        registerAll_handlers_of_not_mem regs2 k m hk2]
  · rw [registerAll_handler, registerAll_handler]

theorem update_congr (H : Heap) (ref : Nat) (f g : Map → Map) (m : Map)
    (hm : H[ref]? = some m) (hfg : f m = g m) : H.update ref f = H.update ref g := by
  unfold Heap.update
  rw [hm]
  simp only []
  rw [hfg]

theorem mem_candidates_wild_iff (P Q : Str) :
    Q ++ "/*".toList ∈ candidates P ↔ P = Q ++ "/*".toList ∨ ∃ R, P = Q ++ '/' :: R := by
  constructor
  · intro h
    unfold candidates at h
    simp only [List.mem_append, List.mem_singleton] at h
    rcases h with (h | h) | h
    · exact Or.inl h.symm
    · right
      obtain ⟨l, h1, h2, hl⟩ := (mem_wildcards_iff _ _ _).mp h
      have hq : Q = strings.Join ((strings.Split P '/').take l) "/".toList := by
        unfold wildcard at hl
        exact List.append_cancel_right hl
      have hj := join_take_drop (strings.Split P '/') "/".toList l h1 (by omega)
      have hs := join_split P '/'
      simp only [String.toList] at hj hs hq
      rw [hs] at hj
      refine ⟨strings.Join ((strings.Split P '/').drop l) ['/'], ?_⟩
      rw [hq]
      simpa using hj
    · exact absurd h (append_wild_ne_Error Q)
  · rintro (rfl | ⟨R, rfl⟩)
    · exact mem_candidates_self _
    · exact mem_candidates_ancestor Q R

theorem update_id (H : Heap) (ref : Nat) (f : Map → Map) (m : Map)
    (hm : H[ref]? = some m) (hf : f m = m) : H.update ref f = H := by
  unfold Heap.update
  rw [hm]
  simp only []
  rw [hf]
  have hlt := getElem?_lt_length H ref m hm
  apply List.ext_getElem? 
  intro i
  rw [List.getElem?_set]
  by_cases h : ref = i
  · subst h; simp [hlt, hm]
  · simp [h]

theorem Middleware_append (m : Map) (xs ys : List Middleware) :
    m.Middleware (xs ++ ys) = (m.Middleware xs).Middleware ys := by
  simp [Map.Middleware, List.foldl_append]

theorem serveLoop_frame (handlers : Str → Option HandlerFunc) (p : Str) (hf : HandlerFunc)
    (path : Str) (ks : List Str) (hp : p ∉ ks) :
    serveLoop (fun k => if k = p then some hf else handlers k) path ks
      = serveLoop handlers path ks := by
  induction ks with
  | nil => rfl
  | cons a ks ih =>
    simp only [List.mem_cons, not_or] at hp
    have ha : a ≠ p := fun h => hp.1 h.symm
    rw [serveLoop, serveLoop, if_neg ha, ih hp.2]

theorem serveHTTP_frame (m : Map) (p : Str) (hf : HandlerFunc) (path : Str)
    (hp : p ∉ candidates (strings.TrimPrefix path m.pathPrefix)) :
    (m.HandleFunc p hf).serveHTTP path = m.serveHTTP path := by
  rw [serveHTTP_eq, serveHTTP_eq]
  congr 1
  exact serveLoop_frame m.handlers p hf path _ hp

theorem run_serveHTTP_some (H : Heap) (ref : Nat) (m : Map) (path : Str) (fuel : Nat)
    (hm : H[ref]? = some m) :
    (∃ hf, m.serveHTTP path = some [Effect.call hf path]
        ∧ run H (fuel + 1) (HandlerFunc.serveHTTP ref) path = run H fuel hf path)
    ∨ (m.serveHTTP path = some [Effect.WriteHeader StatusNotFound]
        ∧ run H (fuel + 1) (HandlerFunc.serveHTTP ref) path
            = Except.ok [Event.WriteHeader StatusNotFound]) := by
  rcases serveLoop_eq_call_or_notFound m.handlers path
    (candidates (strings.TrimPrefix path m.pathPrefix)) with ⟨k, hf, _, _, hrun⟩ | ⟨_, hrun⟩
  · left
    have hs : m.serveHTTP path = some [Effect.call hf path] := by rw [serveHTTP_eq, hrun]
    exact ⟨hf, hs, run_serveHTTP_call H ref m path hf fuel hm hs⟩
  · right
    have hs : m.serveHTTP path = some [Effect.WriteHeader StatusNotFound] := by
      rw [serveHTTP_eq, hrun]
    exact ⟨hs, run_serveHTTP_notFound H ref m path fuel hm hs⟩

theorem run_frame (H : Heap) (ref : Nat) (m : Map) (p : Str) (h : HandlerFunc) (path : Str)
    (hm : H[ref]? = some m)
    (hp : p ∉ candidates (strings.TrimPrefix path m.pathPrefix)) :
    ∀ (fuel : Nat) (g : HandlerFunc),
      run (H.update ref (fun m => m.HandleFunc p h)) fuel g path = run H fuel g path := by
  have hm' := getElem?_update_self H ref (fun m => m.HandleFunc p h) m hm
  intro fuel
  induction fuel with
  | zero => intro g; simp [run]
  | succ fuel ih =>
    intro g
    cases g with
    | user id => simp [run]
    | ServeHTTP r =>
      by_cases hr : r = ref
      · subst hr
        rw [run_ServeHTTP _ _ _ _ _ hm', run_ServeHTTP _ _ _ _ _ hm]
        exact ih _
      · have hne := getElem?_update_ne H ref r (fun m => m.HandleFunc p h) (Ne.symm hr)
        cases hr2 : H[r]? with
        | none => simp [run, hne, hr2]
        | some m2 =>
          rw [run_ServeHTTP _ _ m2 _ _ (hne.trans hr2), run_ServeHTTP _ _ m2 _ _ hr2]
          exact ih _
    | serveHTTP r =>
      by_cases hr : r = ref
      · subst hr
        have hfr := serveHTTP_frame m p h path hp
        rcases run_serveHTTP_some H r m path fuel hm with ⟨hf, hs, hrun⟩ | ⟨hs, hrun⟩
        · rw [hrun, run_serveHTTP_call _ r _ path hf fuel hm' (hfr.trans hs)]
          exact ih _
        · rw [hrun, run_serveHTTP_notFound _ r _ path fuel hm' (hfr.trans hs)]
      · have hne := getElem?_update_ne H ref r (fun m => m.HandleFunc p h) (Ne.symm hr)
        cases hr2 : H[r]? with
        | none => simp [run, hne, hr2]
        | some m2 =>
          rcases run_serveHTTP_some H r m2 path fuel hr2 with ⟨hf, hs, hrun⟩ | ⟨hs, hrun⟩
          · rw [hrun, run_serveHTTP_call _ r m2 path hf fuel (hne.trans hr2) hs]
            exact ih _
          · rw [hrun, run_serveHTTP_notFound _ r m2 path fuel (hne.trans hr2) hs]
    | wrapped mw next =>
      simp only [run]
      rw [ih next]

theorem configAll_pathPrefix (ops : List Op) :
    ∀ m : Map, (configAll ops m).pathPrefix = m.pathPrefix := by
  induction ops with
  | nil => intro m; rfl
  | cons op ops ih =>
    intro m
    show (configAll ops (m.config op)).pathPrefix = _
    rw [ih]
    cases op <;> rfl

theorem configAll_handler (ops : List Op) :
    ∀ m : Map, (configAll ops m).handler
      = (middlewaresOf ops).foldl (fun h mw => wrap mw h) m.handler := by
  induction ops with
  | nil => intro m; rfl
  | cons op ops ih =>
    intro m
    show (configAll ops (m.config op)).handler = _
    rw [ih]
    cases op with
    | HandleFunc path hf => rfl
    | Handle path h => rfl
    | Middleware middleware =>
      simp only [middlewaresOf, List.foldl_append]
      rfl

theorem run_wrap (H : Heap) (fuel : Nat) (mw : Middleware) (next : HandlerFunc) (path : Str) :
    run H (fuel + 1) (wrap mw next) path
      = seqTrace (Except.ok [mwEvent mw]) (repeatTrace (run H fuel next path) (mw.nextCalls path)) := by
  rfl

theorem seqTrace_head (e : Event) (x : Except Fault (List Event)) (t : List Event)
    (h : seqTrace (Except.ok [e]) x = Except.ok t) : t.head? = some e := by
  cases x with
  | error f => simp [seqTrace] at h
  | ok u =>
    simp only [seqTrace_ok_ok, Except.ok.injEq] at h
    rw [← h]
    rfl

/-! ## Claims -/

/-- C1 (first match wins): for a router `m` and a request whose path, after
the mount path is trimmed, has the candidate list `ks` returned by `matches`,
if `k` is the first entry of `ks`, in list order, that is a key of the registry
and `hf` is registered under it, then the body of `serveHTTP` does exactly one
thing: it calls `hf` with the request.  No other handler is called and no
status is written; executing `serveHTTP` is executing `hf`. -/
theorem C1_first_match_wins (m : Map) (path : Str) (ks : List Str) (k : Str) (hf : HandlerFunc)
    (hks : matches_ (strings.TrimPrefix path m.pathPrefix) = some ks)
    (hfirst : ks.find? (fun c => (m.handlers c).isSome) = some k)
    (hk : m.handlers k = some hf) :
    m.serveHTTP path = some [Effect.call hf path]
    ∧ ∀ (H : Heap) (ref fuel : Nat), H[ref]? = some m →
        run H (fuel + 1) (HandlerFunc.serveHTTP ref) path = run H fuel hf path := by
  rw [matches_eq_candidates] at hks
  simp only [Option.some.injEq] at hks
  have hs : m.serveHTTP path = some [Effect.call hf path] := by
    rw [serveHTTP_eq, hks, serveLoop_of_find_some _ _ _ _ _ hfirst hk]
  exact ⟨hs, fun H ref fuel hm => run_serveHTTP_call H ref m path hf fuel hm hs⟩

/-- The instance of C1 with the registry `"/a/*"`, `"/*"` and the path `"/a/b"`. -/
theorem C1_first_match_wins_witness :
    exampleRegistry.serveHTTP "/a/b".toList
        = some [Effect.call (HandlerFunc.user 1) "/a/b".toList]
    ∧ ∀ (H : Heap) (ref fuel : Nat), H[ref]? = some exampleRegistry →
        run H (fuel + 1) (HandlerFunc.serveHTTP ref) "/a/b".toList
          = run H fuel (HandlerFunc.user 1) "/a/b".toList :=
  C1_first_match_wins exampleRegistry "/a/b".toList
    ["/a/b".toList, "/a/*".toList, "/*".toList, "/!".toList] "/a/*".toList (HandlerFunc.user 1)
    (by rfl) (by rfl) (by rfl)

/-- C2: for every string `P`, with `s` the segments of `P` split on every `/`,
`matches(P)` returns (without run-time error) exactly the list made of `P`
itself, then for `l = n - 1` down to `1` the join of `s[0..l-1]` with `/`
followed by `/*`, then the error sentinel `/!`. -/
theorem C2_matches_is_candidate_list (P : Str) :
    matches_ P = some ([P]
      ++ (List.range ((strings.Split P '/').length - 1)).map (fun i =>
            strings.Join ((strings.Split P '/').take ((strings.Split P '/').length - 1 - i))
              "/".toList ++ "/*".toList)
      ++ ["/!".toList]) := by
  rw [matches_eq_candidates]
  simp only [candidates, wildcards_eq_map, wildcard, Error]

/-- C3 (not found): `matches` returns a candidate list `ks` that holds the error
sentinel, `serveHTTP` returns its effects `es`, and the 404 status is written
if and only if no entry of `ks` is a key of the registry; when it is written it
is the only effect, so no handler is called. -/
theorem C3_not_found_iff (m : Map) (path : Str) :
    ∃ ks es, matches_ (strings.TrimPrefix path m.pathPrefix) = some ks
      ∧ Error ∈ ks
      ∧ m.serveHTTP path = some es
      ∧ (Effect.WriteHeader StatusNotFound ∈ es ↔ ∀ k ∈ ks, m.handlers k = none)
      ∧ (Effect.WriteHeader StatusNotFound ∈ es → es = [Effect.WriteHeader StatusNotFound]) := by
  refine ⟨candidates (strings.TrimPrefix path m.pathPrefix),
    serveLoop m.handlers path (candidates (strings.TrimPrefix path m.pathPrefix)),
    matches_eq_candidates _, mem_candidates_Error _, serveHTTP_eq m path, ?_, ?_⟩
  · rcases serveLoop_eq_call_or_notFound m.handlers path
      (candidates (strings.TrimPrefix path m.pathPrefix)) with ⟨k, hf, hk, hreg, hrun⟩ | ⟨hnone, hrun⟩
    · rw [hrun]
      constructor
      · intro h; simp at h
      · intro h; rw [h k hk] at hreg; cases hreg
    · rw [hrun]
      exact ⟨fun _ => hnone, fun _ => by simp⟩
  · rcases serveLoop_eq_call_or_notFound m.handlers path
      (candidates (strings.TrimPrefix path m.pathPrefix)) with ⟨k, hf, hk, hreg, hrun⟩ | ⟨hnone, hrun⟩
    · rw [hrun]; intro h; simp at h
    · rw [hrun]; intro _; rfl

/-- C4 (ancestor wildcard match): when the registry holds a handler `hf` under
the pattern `Q + "/*"` and under no other key, every request whose path (once
the mount path is trimmed) is `Q + "/" + R` has `hf` called and nothing else
done; and on any router a request none of whose candidates is a registered
pattern gets the 404 status. -/
theorem C4_ancestor_wildcard (m : Map) (Q : Str) (hf : HandlerFunc)
    (hreg : m.handlers (Q ++ "/*".toList) = some hf)
    (honly : ∀ k, k ≠ Q ++ "/*".toList → m.handlers k = none) :
    (∀ (path R : Str), strings.TrimPrefix path m.pathPrefix = Q ++ "/".toList ++ R →
        m.serveHTTP path = some [Effect.call hf path])
    ∧ (∀ (m2 : Map) (path : Str) (ks : List Str),
        matches_ (strings.TrimPrefix path m2.pathPrefix) = some ks →
        (∀ k ∈ ks, m2.handlers k = none) →
        m2.serveHTTP path = some [Effect.WriteHeader StatusNotFound]) := by
  constructor
  · intro path R hP
    rw [serveHTTP_eq, hP]
    have hmem : Q ++ "/*".toList ∈ candidates (Q ++ "/".toList ++ R) := by
      have := mem_candidates_ancestor Q R
      simpa using this
    rcases serveLoop_eq_call_or_notFound m.handlers path (candidates (Q ++ "/".toList ++ R))
      with ⟨k, g, hk, hkreg, hrun⟩ | ⟨hnone, _⟩
    · by_cases hkq : k = Q ++ "/*".toList
      · rw [hkq, hreg] at hkreg
        simp only [Option.some.injEq] at hkreg
        rw [hrun, hkreg]
      · rw [honly k hkq] at hkreg; cases hkreg
    · rw [hnone _ hmem] at hreg; cases hreg
  · intro m2 path ks hks hnone
    rw [matches_eq_candidates] at hks
    simp only [Option.some.injEq] at hks
    rw [serveHTTP_eq, hks]
    congr 1
    exact serveLoop_of_all_none _ _ _ hnone

/-- The instance of C4 with the pattern `"/a/b/*"`: `"/a/b/c/d"` reaches the
handler, `"/x/y"` gets the 404 status. -/
theorem C4_ancestor_wildcard_witness :
    exampleWildcardOnly.serveHTTP "/a/b/c/d".toList
        = some [Effect.call (HandlerFunc.user 1) "/a/b/c/d".toList]
    ∧ exampleWildcardOnly.serveHTTP "/x/y".toList
        = some [Effect.WriteHeader StatusNotFound] :=
  have h := C4_ancestor_wildcard exampleWildcardOnly "/a/b".toList (HandlerFunc.user 1) (by rfl)
    (by
      intro k hk
      show (if k = "/a/b/*".toList then some (HandlerFunc.user 1) else none) = none
      exact if_neg hk)
  ⟨h.1 "/a/b/c/d".toList "c/d".toList (by rfl),
   h.2 exampleWildcardOnly "/x/y".toList
    ["/x/y".toList, "/x/*".toList, "/*".toList, "/!".toList] (by rfl)
    (by
      intro k hk
      simp only [List.mem_cons, List.mem_singleton, List.not_mem_nil, or_false] at hk
      rcases hk with rfl | rfl | rfl | rfl <;> rfl)⟩

/-- C5 (middleware runs last in, first out): for a router at address `ref`
created without middleware (its composed handler is its own `serveHTTP`) to
which the middlewares of `batches` are added, one `Middleware` call per batch,
each of them calling `next` exactly once on the request, `ServeHTTP` enters the
middlewares in the reverse of the order in which they were added and then runs
the registry dispatch `serveHTTP`. -/
theorem C5_middleware_lifo (H : Heap) (ref : Nat) (m : Map) (batches : List (List Middleware))
    (path : Str) (fuel : Nat)
    (hm : H[ref]? = some m) (hnew : m.handler = HandlerFunc.serveHTTP ref)
    (hnext : ∀ mw ∈ batches.flatten, mw.nextCalls path = 1) :
    run (H.update ref (fun m => batches.foldl Map.Middleware m))
        (fuel + batches.flatten.length + 1) (HandlerFunc.ServeHTTP ref) path
      = seqTrace (Except.ok (batches.flatten.reverse.map mwEvent))
          (run (H.update ref (fun m => batches.foldl Map.Middleware m)) fuel
            (HandlerFunc.serveHTTP ref) path) := by
  rw [run_ServeHTTP _ ref _ path _ (getElem?_update_self H ref _ m hm),
    foldl_Middleware_handler, hnew]
  exact run_chain_once _ path batches.flatten _ fuel hnext

/-- The instance of C5 with two middlewares `1` then `2`, added by two calls:
the trace is `2`, `1`, then the handler found by the dispatch. -/
theorem C5_middleware_lifo_witness :
    run (exampleHeap.update 0 (fun m => [[mwPass 1], [mwPass 2]].foldl Map.Middleware m))
        (2 + [[mwPass 1], [mwPass 2]].flatten.length + 1) (HandlerFunc.ServeHTTP 0) "/a/b".toList
      = Except.ok [Event.middleware 2, Event.middleware 1, Event.handler 1] :=
  (C5_middleware_lifo exampleHeap 0 exampleRegistry [[mwPass 1], [mwPass 2]] "/a/b".toList 2
    (by rfl) (by rfl) (by
      intro mw hmw
      simp only [List.flatten, List.append_nil, List.singleton_append, List.mem_cons,
        List.mem_singleton, List.not_mem_nil, or_false] at hmw
      rcases hmw with rfl | rfl <;> rfl)).trans (by rfl)

/-- C6 (middleware short-circuit): when the middlewares `before`, then `mw`,
then `after` have been added to a router and `mw` does not call `next` on the
request, `ServeHTTP` ends without fault and its trace `t` is a function of
`mw` and of the middlewares added after it alone, whatever was added before
and whatever the registry holds; it holds nothing but entries of `mw` and of
the middlewares added after it: no handler is invoked, no status is written
and what was added before `mw` does not run.  When every
middleware added after `mw` calls `next`, each of them and `mw` itself has run;
when each calls it exactly once the trace is `after` reversed, then `mw`. -/
theorem C6_middleware_short_circuit (H : Heap) (ref : Nat) (m : Map)
    (before after : List Middleware) (mw : Middleware) (path : Str) (fuel : Nat)
    (hm : H[ref]? = some m) (hstop : mw.nextCalls path = 0) :
    ∃ t, run (H.update ref (fun m => m.Middleware (before ++ mw :: after)))
          (fuel + after.length + 2) (HandlerFunc.ServeHTTP ref) path = Except.ok t
      ∧ t = chainTrace path after [mwEvent mw]
      ∧ (∀ e ∈ t, ∃ a ∈ mw :: after, e = mwEvent a)
      ∧ ((∀ a ∈ after, 0 < a.nextCalls path) → ∀ a ∈ mw :: after, mwEvent a ∈ t)
      ∧ ((∀ a ∈ after, a.nextCalls path = 1) → t = after.reverse.map mwEvent ++ [mwEvent mw]) := by
  have hrun : run (H.update ref (fun m => m.Middleware (before ++ mw :: after)))
      (fuel + after.length + 2) (HandlerFunc.ServeHTTP ref) path
      = Except.ok (chainTrace path after [mwEvent mw]) := by
    have e : fuel + after.length + 2 = (fuel + 1 + after.length) + 1 := by omega
    rw [e, run_ServeHTTP _ ref _ path _ (getElem?_update_self H ref _ m hm)]
    simp only [Map.Middleware, List.foldl_append, List.foldl_cons]
    apply run_chain
    simp only [wrap, run, hstop, repeatTrace, seqTrace_nil_right]
    rfl
  refine ⟨_, hrun, rfl, ?_, ?_, ?_⟩
  · intro e he
    rcases chainTrace_subset path after [mwEvent mw] e he with h | ⟨a, ha, rfl⟩
    · exact ⟨mw, by simp, by simpa using h⟩
    · exact ⟨a, List.mem_cons_of_mem _ ha, rfl⟩
  · intro hall a ha
    obtain ⟨h1, h2⟩ := chainTrace_mem path after [mwEvent mw] hall
    rcases List.mem_cons.mp ha with rfl | ha
    · exact h1 _ (by simp)
    · exact h2 a ha
  · intro hall
    exact chainTrace_once path after _ hall

/-- The instance of C6 with the chain `1`, `2` (which stops), `3`. -/
theorem C6_middleware_short_circuit_witness :
    ∃ t, run (exampleHeap.update 0 (fun m => m.Middleware ([mwPass 1] ++ mwStop 2 :: [mwPass 3])))
          (0 + [mwPass 3].length + 2) (HandlerFunc.ServeHTTP 0) "/a/b".toList = Except.ok t
      ∧ t = chainTrace "/a/b".toList [mwPass 3] [mwEvent (mwStop 2)]
      ∧ (∀ e ∈ t, ∃ a ∈ mwStop 2 :: [mwPass 3], e = mwEvent a)
      ∧ ((∀ a ∈ [mwPass 3], 0 < a.nextCalls "/a/b".toList) →
          ∀ a ∈ mwStop 2 :: [mwPass 3], mwEvent a ∈ t)
      ∧ ((∀ a ∈ [mwPass 3], a.nextCalls "/a/b".toList = 1) →
          t = [mwPass 3].reverse.map mwEvent ++ [mwEvent (mwStop 2)]) :=
  C6_middleware_short_circuit exampleHeap 0 exampleRegistry [mwPass 1] [mwPass 3] (mwStop 2)
    "/a/b".toList 0 (by rfl) (by rfl)

/-- C7 (sub-router mount path, for a parent that leaves the path untrimmed):
let `Sub(X)` be called on the router at address `p`, whose own mount path is
not trimmed off `X + R` (as for a root router, whose mount path is empty),
where `R` begins with `/` and the registry
of `p` holds no key that is an earlier candidate of `X + R` than `X + "/*"`; let
the handlers `regs` then be registered on the sub-router.  For a request for
`X + R` the parent's `serveHTTP` does one thing, the call of the sub-router's
`ServeHTTP` with the same request, and the sub-router probes the candidates of
`R` against its own registry; executing the parent's dispatch is executing the
sub-router's dispatch. -/
theorem C7_sub_strips_mount_path (H0 : Heap) (p : Nat) (parent : Map) (X R : Str)
    (regs : List (Str × HandlerFunc)) (fuel : Nat)
    (hp : H0[p]? = some parent)
    (hR : R.head? = some '/')
    (hstrip : strings.TrimPrefix (X ++ R) parent.pathPrefix = X ++ R)
    (hearlier : ∀ k ∈ (candidates (X ++ R)).takeWhile (fun k => decide (k ≠ X ++ "/*".toList)),
      parent.handlers k = none) :
    ∃ parent' sub,
      ((Sub H0 p X).1.update (Sub H0 p X).2 (registerAll regs))[p]? = some parent'
      ∧ ((Sub H0 p X).1.update (Sub H0 p X).2 (registerAll regs))[(Sub H0 p X).2]? = some sub
      ∧ sub = registerAll regs (newSub X (Sub H0 p X).2)
      ∧ parent'.serveHTTP (X ++ R)
          = some [Effect.call (HandlerFunc.ServeHTTP (Sub H0 p X).2) (X ++ R)]
      ∧ sub.serveHTTP (X ++ R) = some (serveLoop sub.handlers (X ++ R) (candidates R))
      ∧ run ((Sub H0 p X).1.update (Sub H0 p X).2 (registerAll regs)) (fuel + 2)
            (HandlerFunc.serveHTTP p) (X ++ R)
          = run ((Sub H0 p X).1.update (Sub H0 p X).2 (registerAll regs)) fuel
            (HandlerFunc.serveHTTP (Sub H0 p X).2) (X ++ R) := by
  have hlt := getElem?_lt_length H0 p parent hp
  obtain ⟨R', rfl⟩ : ∃ R', R = '/' :: R' := by
    cases R with
    | nil => simp at hR
    | cons c R' => simp at hR; exact ⟨R', by rw [hR]⟩
  have hparent : ((Sub H0 p X).1.update (Sub H0 p X).2 (registerAll regs))[p]?
      = some (parent.Handle (X ++ "/*".toList) (Handler.map H0.length)) := by
    rw [Sub_snd, getElem?_update_ne _ _ _ _ (by omega)]
    exact Sub_getElem?_parent H0 p parent X hp
  have hsub : ((Sub H0 p X).1.update (Sub H0 p X).2 (registerAll regs))[(Sub H0 p X).2]?
      = some (registerAll regs (newSub X H0.length)) := by
    rw [Sub_snd]
    exact getElem?_update_self _ _ _ _ (Sub_getElem?_sub H0 p parent X hp)
  have hps : (parent.Handle (X ++ "/*".toList) (Handler.map H0.length)).serveHTTP (X ++ '/' :: R')
      = some [Effect.call (HandlerFunc.ServeHTTP H0.length) (X ++ '/' :: R')] := by
    rw [serveHTTP_eq]
    show some (serveLoop _ _ (candidates (strings.TrimPrefix (X ++ '/' :: R') parent.pathPrefix))) = _
    rw [hstrip]
    congr 1
    apply serveLoop_of_takeWhile _ _ (X ++ "/*".toList)
    · show (if X ++ "/*".toList = X ++ "/*".toList then _ else _) = _
      rw [if_pos rfl]; rfl
    · exact mem_candidates_ancestor X R'
    · intro k hk
      have hne : k ≠ X ++ "/*".toList := by
        have := List.mem_takeWhile_imp hk
        simpa using this
      show (if k = X ++ "/*".toList then _ else _) = _
      rw [if_neg hne]
      exact hearlier k hk
  have hss : (registerAll regs (newSub X H0.length)).serveHTTP (X ++ '/' :: R')
      = some (serveLoop (registerAll regs (newSub X H0.length)).handlers (X ++ '/' :: R')
          (candidates ('/' :: R'))) := by
    have hpre : (newSub X H0.length).pathPrefix = X := rfl
    rw [serveHTTP_eq, registerAll_pathPrefix, hpre, trimPrefix_append]
  refine ⟨_, _, hparent, hsub, by rw [Sub_snd], by rw [Sub_snd]; exact hps, hss, ?_⟩
  have e : fuel + 2 = (fuel + 1) + 1 := rfl
  rw [e, run_serveHTTP_call _ p _ _ _ (fuel + 1) hparent hps, Sub_snd,
    run_ServeHTTP _ _ _ _ fuel (by rw [← Sub_snd H0 p X]; exact hsub), registerAll_handler]
  rfl


/-- The instance of C7 with `X = "/api"`, `R = "/users"` and a handler
registered on the sub-router at `"/users"` after mounting: it is invoked. -/
theorem C7_sub_strips_mount_path_witness :
    run ((Sub (New []).1 0 "/api".toList).1.update (Sub (New []).1 0 "/api".toList).2
          (registerAll [("/users".toList, HandlerFunc.user 7)])) (2 + 2)
        (HandlerFunc.serveHTTP 0) ("/api".toList ++ "/users".toList)
      = Except.ok [Event.handler 7] := by
  obtain ⟨_, _, _, _, _, _, _, h⟩ :=
    C7_sub_strips_mount_path (New []).1 0 (newSub [] 0) "/api".toList "/users".toList
      [("/users".toList, HandlerFunc.user 7)] 2 (by rfl) (by rfl) (by rfl) (fun k _ => rfl)
  exact h.trans (by rfl)

/-- C7 as stated fails for a parent that has a mount path of its own: with
`d1 = root.Sub("/a")`, `d2 = d1.Sub("/a")` and a handler on `d2` at `"/b"`, the
registry of `d1` holds no earlier candidate of `"/a/b"` than `"/a/*"`, yet `d1`
trims its own `"/a"`, probes the candidates of `"/b"` and writes the 404 status,
while `d2` on the same request invokes the handler. -/
theorem C7_prefixed_parent_counterexample :
    ¬ (∀ (H0 : Heap) (p : Nat) (parent : Map) (X R : Str) (regs : List (Str × HandlerFunc))
        (fuel : Nat),
        H0[p]? = some parent → R.head? = some '/' →
        (∀ k ∈ (candidates (X ++ R)).takeWhile (fun k => decide (k ≠ X ++ "/*".toList)),
          parent.handlers k = none) →
        run ((Sub H0 p X).1.update (Sub H0 p X).2 (registerAll regs)) (fuel + 2)
            (HandlerFunc.serveHTTP p) (X ++ R)
          = run ((Sub H0 p X).1.update (Sub H0 p X).2 (registerAll regs)) fuel
            (HandlerFunc.serveHTTP (Sub H0 p X).2) (X ++ R)) := by
  intro h
  have h1 := h prefixedParentHeap 1 (newSub "/a".toList 1) "/a".toList "/b".toList
    [("/b".toList, HandlerFunc.user 7)] 2 (by rfl) (by rfl) (fun k _ => rfl)
  have e1 : run ((Sub prefixedParentHeap 1 "/a".toList).1.update
      (Sub prefixedParentHeap 1 "/a".toList).2
      (registerAll [("/b".toList, HandlerFunc.user 7)])) (2 + 2) (HandlerFunc.serveHTTP 1)
      ("/a".toList ++ "/b".toList) = Except.ok [Event.WriteHeader 404] := by rfl
  have e2 : run ((Sub prefixedParentHeap 1 "/a".toList).1.update
      (Sub prefixedParentHeap 1 "/a".toList).2
      (registerAll [("/b".toList, HandlerFunc.user 7)])) 2
      (HandlerFunc.serveHTTP (Sub prefixedParentHeap 1 "/a".toList).2)
      ("/a".toList ++ "/b".toList) = Except.ok [Event.handler 7] := by rfl
  rw [e1, e2] at h1
  simp at h1

/-- C8 (nested sub-routers), evaluated on `d1 = root.Sub("/api")`,
`d2 = d1.Sub("/v1")` with a handler on `d2` at `"/users"`: for a request to the
root for `"/api/v1/users"` the request reaches `d2` with its full path, `d2`
trims its mount path `"/v1"` from `"/api/v1/users"`, which does not begin with
it, probes the candidates of the full path and writes the 404 status; the
handler at `"/users"` is not invoked. -/
theorem C8_nested_sub_not_found :
    (nestedHeap[0]?.map (fun m => m.pathPrefix) = some [])
    ∧ (nestedHeap[1]?.map (fun m => m.pathPrefix) = some "/api".toList)
    ∧ (nestedHeap[2]?.map (fun m => m.pathPrefix) = some "/v1".toList)
    ∧ (nestedHeap[0]?.bind (fun m => m.handlers "/api/*".toList) = some (HandlerFunc.ServeHTTP 1))
    ∧ (nestedHeap[1]?.bind (fun m => m.handlers "/v1/*".toList) = some (HandlerFunc.ServeHTTP 2))
    ∧ (nestedHeap[2]?.bind (fun m => m.handlers "/users".toList) = some (HandlerFunc.user 7))
    ∧ (nestedHeap[2]?.bind (fun m => m.serveHTTP "/api/v1/users".toList)
        = some [Effect.WriteHeader StatusNotFound])
    ∧ run nestedHeap 6 (HandlerFunc.ServeHTTP 0) "/api/v1/users".toList
        = Except.ok [Event.WriteHeader StatusNotFound] :=
  ⟨by rfl, by rfl, by rfl, by rfl, by rfl, by rfl, by rfl, by rfl⟩

/-- C9 (last write wins): after `HandleFunc(p, h1)` then `HandleFunc(p, h2)` the
registry maps `p` to `h2`, and the router is the one obtained by the second
registration alone, so `h1` is not kept anywhere; `Handle` stores the
`ServeHTTP` of its argument in the same way.  Every request whose first
registered candidate is `p` has `h2`, and nothing else, called.  The
registrations are total functions: they raise no error. -/
theorem C9_last_write_wins (m : Map) (p : Str) (h1 h2 : HandlerFunc) :
    ((m.HandleFunc p h1).HandleFunc p h2).handlers p = some h2
    ∧ (m.HandleFunc p h1).HandleFunc p h2 = m.HandleFunc p h2
    ∧ (∀ h : Handler, m.Handle p h = m.HandleFunc p h.ServeHTTP)
    ∧ (∀ (path : Str) (ks : List Str),
        matches_ (strings.TrimPrefix path ((m.HandleFunc p h1).HandleFunc p h2).pathPrefix) = some ks →
        ks.find? (fun c => (((m.HandleFunc p h1).HandleFunc p h2).handlers c).isSome) = some p →
        ((m.HandleFunc p h1).HandleFunc p h2).serveHTTP path = some [Effect.call h2 path]) := by
  have hreg : ((m.HandleFunc p h1).HandleFunc p h2).handlers p = some h2 := by
    simp [Map.HandleFunc]
  refine ⟨hreg, ?_, fun h => rfl, ?_⟩
  · simp only [Map.HandleFunc]
    congr 1
    funext k
    by_cases hk : k = p <;> simp [hk]
  · intro path ks hks hfirst
    rw [matches_eq_candidates] at hks
    simp only [Option.some.injEq] at hks
    rw [serveHTTP_eq, hks, serveLoop_of_find_some _ _ _ _ _ hfirst hreg]

/-- C10 (the last wildcard candidate is the first segment followed by `/*`):
for a path `P` with `n ≥ 2` segments `matches` returns `n + 1` entries; the
entry at `i`, for
`1 ≤ i ≤ n - 1`, is the wildcard of the ancestor made of the first `n - i`
segments, which is followed by `/` in `P`; each ancestor is the next one
extended by `/` and a segment, so they run from the deepest to the shallowest;
the last of them, just before `"/!"`, is the first segment of `P` followed by
`"/*"`, and it is the root pattern `"/*"` exactly when `P` begins with `/`. -/
theorem C10_last_wildcard (P : Str) (h2 : 2 ≤ (strings.Split P '/').length) :
    ∃ ks, matches_ P = some ks
      ∧ ks.length = (strings.Split P '/').length + 1
      ∧ (∀ i, 1 ≤ i → i < (strings.Split P '/').length → ∃ rest,
          ks[i]? = some (strings.Join ((strings.Split P '/').take
                      ((strings.Split P '/').length - i)) "/".toList ++ "/*".toList)
          ∧ P = strings.Join ((strings.Split P '/').take
                      ((strings.Split P '/').length - i)) "/".toList ++ '/' :: rest)
      ∧ (∀ i, 1 ≤ i → i + 1 < (strings.Split P '/').length → ∃ seg,
          strings.Join ((strings.Split P '/').take ((strings.Split P '/').length - i)) "/".toList
            = strings.Join ((strings.Split P '/').take
                ((strings.Split P '/').length - (i + 1))) "/".toList ++ '/' :: seg)
      ∧ ks[(strings.Split P '/').length - 1]?
          = some ((strings.Split P '/').headD [] ++ "/*".toList)
      ∧ (ks[(strings.Split P '/').length - 1]? = some "/*".toList ↔ P.head? = some '/')
      ∧ ks[(strings.Split P '/').length]? = some "/!".toList := by
  have hlastw : (candidates P)[(strings.Split P '/').length - 1]?
      = some ((strings.Split P '/').headD [] ++ "/*".toList) := by
    rw [candidates_getElem?_wildcard P _ (by omega) (by omega)]
    have e : (strings.Split P '/').length - ((strings.Split P '/').length - 1) = 1 := by omega
    rw [e, wildcard]
    cases hs : strings.Split P '/' with
    | nil => rw [hs] at h2; simp at h2
    | cons a rest => simp [strings.Join]
  refine ⟨candidates P, matches_eq_candidates P, candidates_length P, ?_, ?_, hlastw, ?_,
    candidates_getElem?_last P⟩
  · intro i h1 hi
    refine ⟨strings.Join ((strings.Split P '/').drop ((strings.Split P '/').length - i))
      "/".toList, candidates_getElem?_wildcard P i h1 hi, ?_⟩
    have h := join_take_drop (strings.Split P '/') "/".toList
      ((strings.Split P '/').length - i) (by omega) (by omega)
    have hj := join_split P '/'
    simp only [String.toList] at h hj ⊢
    rw [hj] at h
    simpa using h
  · intro i h1 hi
    refine ⟨(strings.Split P '/')[(strings.Split P '/').length - (i + 1)], ?_⟩
    have h := join_take_succ (strings.Split P '/') "/".toList
      ((strings.Split P '/').length - (i + 1)) (by omega) (by omega)
    have e : (strings.Split P '/').length - (i + 1) + 1 = (strings.Split P '/').length - i := by
      omega
    rw [e] at h
    simpa using h
  · rw [hlastw]
    have hne : P ≠ [] := by
      rintro rfl
      simp [strings.Split] at h2
    have hiff := split_head_nil_iff P '/'
    constructor
    · intro h
      have h0 : (strings.Split P '/').headD [] = [] := by
        simp only [Option.some.injEq] at h
        exact List.append_left_eq_self.mp h
      have : (strings.Split P '/').head? = some [] := by
        cases hs : strings.Split P '/' with
        | nil => rw [hs] at h2; simp at h2
        | cons a rest => rw [hs] at h0; simpa using h0
      rcases hiff.mp this with h | h
      · exact absurd h hne
      · exact h
    · intro h
      have := hiff.mpr (Or.inr h)
      cases hs : strings.Split P '/' with
      | nil => rw [hs] at h2; simp at h2
      | cons a rest => rw [hs] at this; simp at this; simp [this]

/-- The instance of C10 with the path `"/a/b"`, whose last wildcard is `"/*"`. -/
theorem C10_last_wildcard_witness :
    ∃ ks, matches_ "/a/b".toList = some ks ∧ ks[2]? = some "/*".toList :=
  have h := C10_last_wildcard "/a/b".toList (by decide)
  h.elim fun ks hks => ⟨ks, hks.1, hks.2.2.2.2.2.1.mpr (by rfl)⟩

/-- C10 as stated fails for a path that does not begin with `/`: `"a/b"` has two
segments and `matches("a/b")` is `["a/b", "a/*", "/!"]`, whose entry before the
sentinel is `"a/*"`. -/
theorem C10_root_pattern_counterexample :
    ¬ (∀ P : Str, 2 ≤ (strings.Split P '/').length →
        ∃ ks, matches_ P = some ks
          ∧ ks[(strings.Split P '/').length - 1]? = some "/*".toList) := by
  intro h
  obtain ⟨ks, hks, hlast⟩ := h "a/b".toList (by decide)
  have e : matches_ "a/b".toList = some ["a/b".toList, "a/*".toList, "/!".toList] := by rfl
  rw [e] at hks
  simp only [Option.some.injEq] at hks
  subst hks
  revert hlast
  decide

/-- C11 (the error handler is a last resort): let a handler `hErr` be registered
under the error sentinel `"/!"`.  Whenever no other pattern that is a candidate
of the request path is registered, `serveHTTP` calls `hErr` and writes no
status.  For a request path other than `"/!"` itself, the first registered
candidate is the sentinel if and only if no other candidate is registered: the
handler of the sentinel is reached only when the exact path, every ancestor
wildcard and the default `"/*"` are all unregistered. -/
theorem C11_error_handler_last_resort (m : Map) (path : Str) (hErr : HandlerFunc)
    (hreg : m.handlers Error = some hErr) :
    ∃ ks, matches_ (strings.TrimPrefix path m.pathPrefix) = some ks
      ∧ ((∀ k ∈ ks, k ≠ Error → m.handlers k = none) →
          m.serveHTTP path = some [Effect.call hErr path])
      ∧ (strings.TrimPrefix path m.pathPrefix ≠ Error →
          (ks.find? (fun c => (m.handlers c).isSome) = some Error
            ↔ ∀ k ∈ ks, k ≠ Error → m.handlers k = none)) := by
  have hsome : (m.handlers Error).isSome = true := by rw [hreg]; rfl
  refine ⟨candidates (strings.TrimPrefix path m.pathPrefix), matches_eq_candidates _, ?_, ?_⟩
  · intro hnone
    rw [serveHTTP_eq]
    congr 1
    apply serveLoop_of_takeWhile _ _ Error hErr hreg _ (mem_candidates_Error _)
    intro k hk
    have hne : k ≠ Error := by
      have := List.mem_takeWhile_imp hk
      simpa using this
    exact hnone k (List.takeWhile_subset _ hk) hne
  · intro hP
    unfold candidates
    simp only []
    apply find?_sentinel_iff _ _ _ _ hsome
    intro k hk
    rcases List.mem_append.mp hk with h | h
    · rw [List.mem_singleton.mp h]; exact hP
    · exact wildcards_ne_Error _ _ k h

/-- The instance of C11 with the registry `"/!"`, `"/*"` and the path `"/x"`. -/
theorem C11_error_handler_last_resort_witness :
    ∃ ks, matches_ (strings.TrimPrefix "/x".toList exampleErrorRegistry.pathPrefix) = some ks
      ∧ ((∀ k ∈ ks, k ≠ Error → exampleErrorRegistry.handlers k = none) →
          exampleErrorRegistry.serveHTTP "/x".toList
            = some [Effect.call (HandlerFunc.user 9) "/x".toList])
      ∧ (strings.TrimPrefix "/x".toList exampleErrorRegistry.pathPrefix ≠ Error →
          (ks.find? (fun c => (exampleErrorRegistry.handlers c).isSome) = some Error
            ↔ ∀ k ∈ ks, k ≠ Error → exampleErrorRegistry.handlers k = none)) :=
  C11_error_handler_last_resort exampleErrorRegistry "/x".toList (HandlerFunc.user 9) (by rfl)

/-- C11 as stated fails for the request path `"/!"`: its candidates are
`["/!", "/*", "/!"]`, so with handlers under `"/!"` and `"/*"` the first
registered candidate is the sentinel, reached as the exact path, although the
registered default `"/*"` is a candidate too. -/
theorem C11_sentinel_path_counterexample :
    ¬ (∀ (m : Map) (path : Str) (ks : List Str),
        matches_ (strings.TrimPrefix path m.pathPrefix) = some ks →
        ks.find? (fun c => (m.handlers c).isSome) = some Error →
        ∀ k ∈ ks, k ≠ Error → m.handlers k = none) := by
  intro h
  have h1 := h exampleErrorRegistry "/!".toList ["/!".toList, "/*".toList, "/!".toList]
    (by rfl) (by rfl) "/*".toList (by decide) (by decide)
  have h2 : exampleErrorRegistry.handlers "/*".toList = some (HandlerFunc.user 2) := by rfl
  rw [h2] at h1
  cases h1

/-- C12 (middleware applies to all requests): two sequences of configuration
calls (`Handle`, `HandleFunc`, `Middleware`, in any interleaving) on the same
router that add the same middlewares in the same order and end with the same
registry leave the router in the same state, hence every request runs the
same.  When the middlewares added are `init` then `last`, a request through
`ServeHTTP` enters `last` first, for every request path and every registry:
the run is the entry of `last` followed by what `last` wraps, as many times as
it calls `next`, and the first event of every completed run is `last`. -/
theorem C12_middleware_all_requests (m : Map) (ops1 ops2 : List Op)
    (hmw : middlewaresOf ops1 = middlewaresOf ops2)
    (hreg : (configAll ops1 m).handlers = (configAll ops2 m).handlers) :
    configAll ops1 m = configAll ops2 m
    ∧ (∀ (H : Heap) (ref : Nat), H[ref]? = some m →
        ∀ (fuel : Nat) (hf : HandlerFunc) (path : Str),
          run (H.update ref (configAll ops1)) fuel hf path
            = run (H.update ref (configAll ops2)) fuel hf path)
    ∧ (∀ (init : List Middleware) (last : Middleware), middlewaresOf ops1 = init ++ [last] →
        ∀ (H : Heap) (ref : Nat), H[ref]? = some m →
        ∀ (fuel : Nat) (path : Str),
          run (H.update ref (configAll ops1)) (fuel + 2) (HandlerFunc.ServeHTTP ref) path
            = seqTrace (Except.ok [mwEvent last])
                (repeatTrace
                  (run (H.update ref (configAll ops1)) fuel
                    (init.foldl (fun h mw => wrap mw h) m.handler) path)
                  (last.nextCalls path))
          ∧ ∀ t, run (H.update ref (configAll ops1)) (fuel + 2) (HandlerFunc.ServeHTTP ref) path
                = Except.ok t → t.head? = some (mwEvent last)) := by
  have heq : configAll ops1 m = configAll ops2 m := by
    apply Map.eq_of_fields
    · rw [configAll_pathPrefix, configAll_pathPrefix]
    · exact hreg
    · rw [configAll_handler, configAll_handler, hmw]
  refine ⟨heq, ?_, ?_⟩
  · intro H ref hm fuel hf path
    rw [update_congr H ref _ _ m hm heq]
  · intro init last hlast H ref hm fuel path
    have hrun : run (H.update ref (configAll ops1)) (fuel + 2) (HandlerFunc.ServeHTTP ref) path
        = seqTrace (Except.ok [mwEvent last])
            (repeatTrace
              (run (H.update ref (configAll ops1)) fuel
                (init.foldl (fun h mw => wrap mw h) m.handler) path)
              (last.nextCalls path)) := by
      have e : fuel + 2 = (fuel + 1) + 1 := rfl
      rw [e, run_ServeHTTP _ ref _ path _ (getElem?_update_self H ref _ m hm),
        configAll_handler, hlast, List.foldl_append]
      exact run_wrap _ _ _ _ _
    refine ⟨hrun, ?_⟩
    intro t ht
    rw [hrun] at ht
    exact seqTrace_head _ _ _ ht

/-- The instance of C12 with a route registered before two `Middleware` calls
and the same route registered after one variadic call: the states are equal,
and a request that matches no pattern still goes through both middlewares. -/
theorem C12_middleware_all_requests_witness :
    configAll exampleOpsBefore emptyMap = configAll exampleOpsAfter emptyMap
    ∧ run (Heap.update [emptyMap] 0 (configAll exampleOpsBefore)) 4 (HandlerFunc.ServeHTTP 0)
          "/x".toList
        = Except.ok [Event.middleware 2, Event.middleware 1, Event.WriteHeader 404]
    ∧ run (Heap.update [emptyMap] 0 (configAll exampleOpsAfter)) 5 (HandlerFunc.ServeHTTP 0)
          "/a/x".toList
        = Except.ok [Event.middleware 2, Event.middleware 1, Event.handler 1] :=
  ⟨(C12_middleware_all_requests emptyMap exampleOpsBefore exampleOpsAfter (by rfl) (by rfl)).1,
    by rfl, by rfl⟩

/-- C13: for every string `P` the number `n` of its slash-delimited segments is
one more than the number of `/` characters in `P` (so `n = 1` for the empty
path), `matches(P)` returns exactly `n + 1` entries and its last entry is the
error sentinel `"/!"`. -/
theorem C13_matches_length (P : Str) :
    (strings.Split P '/').length = P.count '/' + 1
    ∧ (strings.Split [] '/').length = 1
    ∧ ∃ ks, matches_ P = some ks
        ∧ ks.length = (strings.Split P '/').length + 1
        ∧ ks.getLast? = some "/!".toList :=
  ⟨split_length_eq_count P '/', rfl, candidates P, matches_eq_candidates P, candidates_length P,
    candidates_getLast? P⟩

/-- C14: `matches("/a/b/c")` is `["/a/b/c", "/a/b/*", "/a/*", "/*", "/!"]`. -/
theorem C14_matches_abc :
    matches_ "/a/b/c".toList
      = some ["/a/b/c".toList, "/a/b/*".toList, "/a/*".toList, "/*".toList, "/!".toList] := by
  rfl

/-- C15: the root path `"/"` splits into two empty segments and
`matches("/")` is the three candidates `["/", "/*", "/!"]`. -/
theorem C15_matches_root :
    strings.Split "/".toList '/' = [[], []]
    ∧ matches_ "/".toList = some ["/".toList, "/*".toList, "/!".toList] :=
  ⟨by rfl, by rfl⟩

/-- C16 (an absent mount path counts as no mount path): for a router with mount
path `X` and a request path `P` that does not begin with `X`, `serveHTTP`
returns without run-time error, the candidates probed are `matches(P)` and the
effects are those of a router with the same registry and an empty mount path;
for a request path `X + R` the candidates probed are those of `R`, the path
with that one leading `X` removed. -/
theorem C16_absent_mount_path (m : Map) :
    (∀ P : Str, strings.HasPrefix P m.pathPrefix = false →
        matches_ (strings.TrimPrefix P m.pathPrefix) = matches_ P
        ∧ (∃ ks, matches_ P = some ks ∧ m.serveHTTP P = some (serveLoop m.handlers P ks))
        ∧ m.serveHTTP P = ({ m with pathPrefix := [] } : Map).serveHTTP P)
    ∧ (∀ R : Str,
        matches_ (strings.TrimPrefix (m.pathPrefix ++ R) m.pathPrefix) = matches_ R
        ∧ ∃ ks, matches_ R = some ks
            ∧ m.serveHTTP (m.pathPrefix ++ R)
                = some (serveLoop m.handlers (m.pathPrefix ++ R) ks)) := by
  constructor
  · intro P hP
    have ht := trimPrefix_of_not_hasPrefix P m.pathPrefix hP
    refine ⟨by rw [ht], ⟨candidates P, matches_eq_candidates P, ?_⟩, ?_⟩
    · rw [serveHTTP_eq, ht]
    · rw [serveHTTP_eq, serveHTTP_eq, ht]
      show _ = some (serveLoop m.handlers P (candidates (strings.TrimPrefix P [])))
      rw [trimPrefix_nil]
  · intro R
    refine ⟨by rw [trimPrefix_append], candidates R, matches_eq_candidates R, ?_⟩
    rw [serveHTTP_eq, trimPrefix_append]

/-- C17 (insertion order is irrelevant): two sequences of registrations that are
permutations of each other and use pairwise distinct patterns give the same
router state, so `serveHTTP` has the same effects for every request path and
every run is the same. -/
theorem C17_insertion_order_irrelevant (m : Map) (regs1 regs2 : List (Str × HandlerFunc))
    (hperm : regs1.Perm regs2) (hnodup : (regs1.map Prod.fst).Nodup) :
    registerAll regs1 m = registerAll regs2 m
    ∧ (∀ path : Str, (registerAll regs1 m).serveHTTP path = (registerAll regs2 m).serveHTTP path)
    ∧ (∀ (H : Heap) (ref : Nat), H[ref]? = some m →
        ∀ (fuel : Nat) (hf : HandlerFunc) (path : Str),
          run (H.update ref (registerAll regs1)) fuel hf path
            = run (H.update ref (registerAll regs2)) fuel hf path) := by
  have h := registerAll_perm m regs1 regs2 hperm hnodup
  refine ⟨h, fun path => by rw [h], ?_⟩
  intro H ref hm fuel hf path
  rw [update_congr H ref _ _ m hm h]

/-- The instance of C17 with the patterns `"/a"` and `"/*"` in both orders. -/
theorem C17_insertion_order_irrelevant_witness :
    registerAll [("/a".toList, HandlerFunc.user 1), ("/*".toList, HandlerFunc.user 2)] emptyMap
      = registerAll [("/*".toList, HandlerFunc.user 2), ("/a".toList, HandlerFunc.user 1)] emptyMap :=
  (C17_insertion_order_irrelevant emptyMap
    [("/a".toList, HandlerFunc.user 1), ("/*".toList, HandlerFunc.user 2)]
    [("/*".toList, HandlerFunc.user 2), ("/a".toList, HandlerFunc.user 1)]
    (List.Perm.swap _ _ _) (by decide)).1

/-- C18 (wildcards respect segment boundaries): the pattern `Q + "/*"` is an
entry of `matches(P)` if and only if `P` is literally `Q + "/*"` or `Q + "/"`
is a leading part of `P`.  Hence a router whose only pattern is `Q + "/*"`
writes the 404 status for every other path that does not begin with `Q + "/"`:
with the pattern `"/a/b/*"`, neither `"/a/b"` nor `"/a/bc"` reaches the
handler. -/
theorem C18_wildcard_segment_boundary (P Q : Str) :
    (∃ ks, matches_ P = some ks
      ∧ (Q ++ "/*".toList ∈ ks ↔ P = Q ++ "/*".toList ∨ Q ++ "/".toList <+: P))
    ∧ (∀ (m : Map) (path : Str) (hf : HandlerFunc),
        strings.TrimPrefix path m.pathPrefix = P →
        m.handlers (Q ++ "/*".toList) = some hf →
        (∀ k, k ≠ Q ++ "/*".toList → m.handlers k = none) →
        P ≠ Q ++ "/*".toList → ¬ (Q ++ "/".toList <+: P) →
        m.serveHTTP path = some [Effect.WriteHeader StatusNotFound])
    ∧ exampleWildcardOnly.serveHTTP "/a/b".toList = some [Effect.WriteHeader StatusNotFound]
    ∧ exampleWildcardOnly.serveHTTP "/a/bc".toList = some [Effect.WriteHeader StatusNotFound] := by
  have hpre : (Q ++ "/".toList <+: P) ↔ ∃ R, P = Q ++ '/' :: R := by
    constructor
    · rintro ⟨R, rfl⟩; exact ⟨R, by simp⟩
    · rintro ⟨R, rfl⟩; exact ⟨R, by simp⟩
  refine ⟨?_, ?_, by rfl, by rfl⟩
  · refine ⟨candidates P, matches_eq_candidates P, ?_⟩
    rw [mem_candidates_wild_iff, hpre]
  · intro m path hf hP _ honly hne hnp
    rw [serveHTTP_eq, hP]
    congr 1
    apply serveLoop_of_all_none
    intro k hk
    apply honly
    rintro rfl
    rcases (mem_candidates_wild_iff P Q).mp hk with h | h
    · exact hne h
    · exact hnp (hpre.mpr h)

/-- C19 (the variadic `Middleware` call): `Middleware(a, b)` leaves the router
in the state that `Middleware(a)` followed by `Middleware(b)` gives (so does
any split of the argument list), with the registry untouched, and
`Middleware()` leaves the state unchanged; the heaps are equal, so every
request runs the same. -/
theorem C19_variadic_middleware (m : Map) (a b : Middleware) :
    m.Middleware [a, b] = (m.Middleware [a]).Middleware [b]
    ∧ m.Middleware [] = m
    ∧ (∀ xs ys : List Middleware, m.Middleware (xs ++ ys) = (m.Middleware xs).Middleware ys)
    ∧ (m.Middleware [a, b]).handlers = m.handlers
    ∧ (∀ (H : Heap) (ref : Nat), H[ref]? = some m →
        H.update ref (fun m => m.Middleware [a, b])
          = (H.update ref (fun m => m.Middleware [a])).update ref (fun m => m.Middleware [b])
        ∧ H.update ref (fun m => m.Middleware []) = H
        ∧ ∀ (fuel : Nat) (hf : HandlerFunc) (path : Str),
            run (H.update ref (fun m => m.Middleware [a, b])) fuel hf path
              = run ((H.update ref (fun m => m.Middleware [a])).update ref
                  (fun m => m.Middleware [b])) fuel hf path) := by
  refine ⟨Middleware_append m [a] [b], rfl, Middleware_append m, rfl, ?_⟩
  intro H ref hm
  have h1 : H.update ref (fun m => m.Middleware [a, b])
      = (H.update ref (fun m => m.Middleware [a])).update ref (fun m => m.Middleware [b]) := by
    have hlt := getElem?_lt_length H ref m hm
    have hm1 := getElem?_update_self H ref (fun m => m.Middleware [a]) m hm
    unfold Heap.update at hm1 ⊢
    rw [hm] at hm1 ⊢
    simp only [] at hm1 ⊢
    rw [hm1]
    simp only [List.set_set]
    rfl
  refine ⟨h1, update_id H ref _ m hm rfl, ?_⟩
  intro fuel hf path
  rw [h1]

/-- C20 (registration frame): when `p` is not an entry of the candidate list of
the request path (mount path trimmed), `HandleFunc(p, hf)` and `Handle(p, h)`
leave the effects of `serveHTTP` on that request unchanged, and every run for
that request path is the same in the heap before and after the registration.
A registration never changes the mount path or the composed handler. -/
theorem C20_registration_frame (m : Map) (p : Str) (hf : HandlerFunc) (path : Str)
    (ks : List Str)
    (hks : matches_ (strings.TrimPrefix path m.pathPrefix) = some ks) (hp : p ∉ ks) :
    (m.HandleFunc p hf).serveHTTP path = m.serveHTTP path
    ∧ (∀ h : Handler, (m.Handle p h).serveHTTP path = m.serveHTTP path)
    ∧ (m.HandleFunc p hf).pathPrefix = m.pathPrefix
    ∧ (m.HandleFunc p hf).handler = m.handler
    ∧ (∀ (H : Heap) (ref : Nat), H[ref]? = some m →
        ∀ (fuel : Nat) (g : HandlerFunc),
          run (H.update ref (fun m => m.HandleFunc p hf)) fuel g path = run H fuel g path) := by
  rw [matches_eq_candidates] at hks
  simp only [Option.some.injEq] at hks
  subst hks
  refine ⟨serveHTTP_frame m p hf path hp, ?_, rfl, rfl, ?_⟩
  · intro h
    exact serveHTTP_frame m p h.ServeHTTP path hp
  · intro H ref hm
    exact run_frame H ref m p hf path hm hp

/-- The instance of C20: registering `"/b/*"` does not change the dispatch of
`"/a/b"`. -/
theorem C20_registration_frame_witness :
    (exampleRegistry.HandleFunc "/b/*".toList (HandlerFunc.user 5)).serveHTTP "/a/b".toList
      = exampleRegistry.serveHTTP "/a/b".toList :=
  (C20_registration_frame exampleRegistry "/b/*".toList (HandlerFunc.user 5) "/a/b".toList
    ["/a/b".toList, "/a/*".toList, "/*".toList, "/!".toList] (by rfl) (by decide)).1

end router
